import Mathlib

/-!
Verification of the item-identification and lead-decision engine of the
reddih repository (src/main.py) against its natural-language specification.

Text is modelled at the character level (`List Char`), restricted to the
ASCII behaviour of the Python string primitives actually exercised by the
engine (`lower`, `strip`, `split`, whitespace classes).  Catalog lookup
tables (`dict` in the source) are modelled as association lists in
insertion order, which is exactly the iteration order Python guarantees.
The external classifier call of PASS2 is modelled by its observable
outcome: `none` for a call that raises, `some reply` for a reply text.
Numeric values are `Int` (the source manipulates plain Python ints, with
`-1` as the no-override sentinel).
-/

namespace Reddih

/-! ## Character primitives (Python `str` methods, ASCII fragment) -/

/-- Whitespace test used by `str.strip` / `str.split` / the regex class
whitespace, restricted to the ASCII whitespace characters. -/
def isSpaceChar (c : Char) : Bool :=
  c = ' ' || c = '\t' || c = '\n' || c = '\r' || c = '\x0b' || c = '\x0c'

/-- ASCII fragment of Python `str.lower` (per character). -/
def lowerChar (c : Char) : Char :=
  if 'A' ≤ c && c ≤ 'Z' then Char.ofNat (c.toNat + 32) else c

/-- ASCII fragment of Python `str.upper` (per character). -/
def upperChar (c : Char) : Char :=
  if 'a' ≤ c && c ≤ 'z' then Char.ofNat (c.toNat - 32) else c

/-- Python `str.strip()`: drop whitespace from both ends. -/
def stripChars (l : List Char) : List Char :=
  ((l.dropWhile isSpaceChar).reverse.dropWhile isSpaceChar).reverse

/-- The curly-quote mapping of `normalize_name`
(`replace("’", "'").replace("‘", "'")`). -/
def quoteMapChar (c : Char) : Char :=
  if c = '’' || c = '‘' then '\'' else c

/-- Python `s.replace("'s", "s")`: left-to-right, non-overlapping. -/
def collapsePoss : List Char → List Char
  | [] => []
  | [c] => [c]
  | c₁ :: c₂ :: rest =>
    if c₁ = '\'' ∧ c₂ = 's' then 's' :: collapsePoss rest
    else c₁ :: collapsePoss (c₂ :: rest)

/-- Occurrence test for the two-character possessive pattern; used to
state when a single `collapsePoss` pass is already exhaustive. -/
def hasPossPattern : List Char → Bool
  | [] => false
  | [_] => false
  | c₁ :: c₂ :: rest => (c₁ = '\'' && c₂ = 's') || hasPossPattern (c₂ :: rest)

/-- Character class kept by `re.sub(r"[^a-z0-9\s]", " ", s)`. -/
def keepChar (c : Char) : Bool :=
  ('a' ≤ c && c ≤ 'z') || ('0' ≤ c && c ≤ '9') || isSpaceChar c

/-- The substitution `re.sub(r"[^a-z0-9\s]", " ", s)`. -/
def punctToSpace (l : List Char) : List Char :=
  l.map (fun c => if keepChar c then c else ' ')

/-- Worker for `re.sub(r"\s+", " ", s)`: the flag records whether the
previous character was whitespace (already emitted as one space). -/
def collapseWsAux : Bool → List Char → List Char
  | _, [] => []
  | prevSpace, c :: rest =>
    if isSpaceChar c then
      if prevSpace then collapseWsAux true rest
      else ' ' :: collapseWsAux true rest
    else c :: collapseWsAux false rest

/-- `re.sub(r"\s+", " ", s)`: collapse every whitespace run to one space. -/
def collapseWs (l : List Char) : List Char :=
  collapseWsAux false l

/-- Worker for `str.split()` (split on whitespace runs, no empty words). -/
def splitWsAux : List Char → List Char → List (List Char)
  | [], cur => if cur.isEmpty then [] else [cur.reverse]
  | c :: rest, cur =>
    if isSpaceChar c then
      if cur.isEmpty then splitWsAux rest [] else cur.reverse :: splitWsAux rest []
    else splitWsAux rest (c :: cur)

/-- Python `str.split()` with no argument. -/
def splitWs (l : List Char) : List (List Char) :=
  splitWsAux l []

/-- Worker for `str.split(sep)` with an explicit one-character separator
(empty pieces are kept, as in Python). -/
def splitOnCharAux (sep : Char) : List Char → List Char → List (List Char)
  | [], cur => [cur.reverse]
  | c :: rest, cur =>
    if c = sep then cur.reverse :: splitOnCharAux sep rest []
    else splitOnCharAux sep rest (c :: cur)

/-- Python `str.split(sep)` for a one-character separator. -/
def splitOnChar (sep : Char) (l : List Char) : List (List Char) :=
  splitOnCharAux sep l []

/-- Python `s.startswith(pat)`: `listStartsWith s pat` is true when `s`
begins with `pat`. -/
def listStartsWith : List Char → List Char → Bool
  | _, [] => true
  | [], _ :: _ => false
  | a :: as, b :: bs => a = b && listStartsWith as bs

/-- Python `pat in hay` (substring containment). -/
def containsSub (pat : List Char) : List Char → Bool
  | [] => listStartsWith [] pat
  | c :: t => listStartsWith (c :: t) pat || containsSub pat t

/-- Python `x.split(":", 1)[1]`: everything after the first colon (the
callers guard with a `startswith` check that guarantees a colon). -/
def afterColon : List Char → List Char
  | [] => []
  | ':' :: rest => rest
  | _ :: rest => afterColon rest

/-! ## normalize_name (src/main.py lines 56-63) -/

/-- `normalize_name`: lowercase+strip, map curly quotes to `'`, collapse
the possessive suffix twice, strip punctuation to spaces, collapse
whitespace runs and trim. -/
def normalize_name (name : List Char) : List Char :=
  let s1 := stripChars (name.map lowerChar)
  let s2 := s1.map quoteMapChar
  let s3 := collapsePoss (collapsePoss s2)
  let s4 := punctToSpace s3
  stripChars (collapseWs s4)

/-- Variant of `normalize_name` written from the specification sentence
that says a single possessive-collapse pass suffices; it differs from the
source only in applying `collapsePoss` once.  Used solely to compare the
spec's refinement statement with the implemented function. -/
def normalize_name_once (name : List Char) : List Char :=
  let s1 := stripChars (name.map lowerChar)
  let s2 := s1.map quoteMapChar
  let s3 := collapsePoss s2
  let s4 := punctToSpace s3
  stripChars (collapseWs s4)

/-! ## Catalog model (Rolimons item tuples and lookup tables) -/

/-- One item tuple of the catalog snapshot: positions 0-3 of the Rolimons
item array used by the source (`name`, `acronym`, `rap`, `value`), where
`value = -1` means "no override, use `rap`". -/
structure ItemData where
  name : List Char
  acronym : List Char
  rap : Int
  value : Int
deriving DecidableEq, Repr

/-- The value resolution used everywhere in the source:
`item_data[3] if item_data[3] != -1 else item_data[2]`. -/
def resolvedValue (d : ItemData) : Int :=
  if d.value ≠ -1 then d.value else d.rap

/-- An `(item_id, item_data)` pair as stored in the lookup tables.  Item
ids are opaque; they are modelled as naturals. -/
abbrev Entry := Nat × ItemData

/-- A lookup table (`name_lookup` or `acronym_lookup`): an association
list in Python dict insertion/iteration order. -/
abbrev Lookup := List (List Char × Entry)

/-- Python `key in table` / `table[key]` combined: first binding wins
(dict keys are unique, so any binding wins). -/
def tableLookup (tbl : Lookup) (k : List Char) : Option Entry :=
  match tbl with
  | [] => none
  | (k', e) :: rest => if k' = k then some e else tableLookup rest k

/-! ## match_single_item (src/main.py lines 196-235) -/

/-- One-by-one form of the tier-3 loop of `match_single_item`: keep the
entry whose key starts with the candidate and is strictly longer than
the best so far (so the first key of maximal length wins). -/
def prefixFoldGo (detNorm : List Char) : Lookup → Option Entry × Nat → Option Entry × Nat
  | [], st => st
  | p :: rest, st =>
    if listStartsWith p.1 detNorm ∧ p.1.length > st.2 then
      prefixFoldGo detNorm rest (some p.2, p.1.length)
    else prefixFoldGo detNorm rest st

/-- The tier-3 loop of `match_single_item`, started at
`best_match = None, best_len = 0`. -/
def prefixFold (nameLookup : Lookup) (detNorm : List Char) : Option Entry × Nat :=
  prefixFoldGo detNorm nameLookup (none, 0)

/-- `match_single_item`: exact normalized name, then exact lowercased
acronym, then guarded longest-extension lookup. -/
def match_single_item (detectedName : List Char)
    (nameLookup acronymLookup : Lookup) : Option Entry :=
  let detLower := (stripChars detectedName).map lowerChar
  let detNorm := normalize_name detectedName
  match tableLookup nameLookup detNorm with
  | some e => some e
  | none =>
    match tableLookup acronymLookup detLower with
    | some e => some e
    | none =>
      if (splitWs detNorm).length ≥ 2 ∧ detNorm.length ≥ 8 then
        (prefixFold nameLookup detNorm).1
      else none

/-! ## match_items_rolimons_only (src/main.py lines 238-272) -/

/-- One detected mention handed over by the extraction collaborator
(`{"name": ..., "value": ...}`). -/
structure DetectedMention where
  name : List Char
  value : Int
deriving DecidableEq, Repr

/-- One element of the result list of `match_items_rolimons_only`. -/
structure MatchResult where
  id : Nat
  name : List Char
  acronym : List Char
  value : Int
  detectedAs : List Char
deriving DecidableEq, Repr

/-- Stable descending insertion by an integer key: the inserted element
goes before the first element with a key not above its own, which is the
stable-descending order Python's `list.sort(key=..., reverse=True)`
produces. -/
def insertDescBy {α : Type} (key : α → Int) (x : α) : List α → List α
  | [] => [x]
  | y :: ys => if key x ≥ key y then x :: y :: ys else y :: insertDescBy key x ys

/-- Stable descending sort by an integer key (Python
`list.sort(key=..., reverse=True)`). -/
def sortDescBy {α : Type} (key : α → Int) : List α → List α
  | [] => []
  | x :: xs => insertDescBy key x (sortDescBy key xs)

/-- The main loop of `match_items_rolimons_only`, with the `seen_ids`
set as explicit state: a successful match is dropped when its id has
been emitted already, skipped (without marking the id) when its resolved
value is below the threshold, and emitted otherwise. -/
def matchLoop (nameLookup acronymLookup : Lookup) (threshold : Int) :
    List DetectedMention → List Nat → List MatchResult
  | [], _ => []
  | det :: rest, seen =>
    match match_single_item det.name nameLookup acronymLookup with
    | none => matchLoop nameLookup acronymLookup threshold rest seen
    | some (itemId, d) =>
      if itemId ∈ seen then matchLoop nameLookup acronymLookup threshold rest seen
      else if resolvedValue d < threshold then
        matchLoop nameLookup acronymLookup threshold rest seen
      else
        ⟨itemId, d.name, d.acronym, resolvedValue d, det.name⟩ ::
          matchLoop nameLookup acronymLookup threshold rest (itemId :: seen)

/-- `match_items_rolimons_only` with the value threshold passed
explicitly (`MIN_VALUE_THRESHOLD` in the source is a module constant). -/
def match_items_rolimons_only (detected : List DetectedMention)
    (nameLookup acronymLookup : Lookup) (threshold : Int) : List MatchResult :=
  sortDescBy (fun r => r.value) (matchLoop nameLookup acronymLookup threshold detected [])

/-! ## find_mentioned_items (src/main.py lines 404-518) -/

/-- One matched item as built by the text scan and by PASS2
(`{"id", "name", "acronym", "value"}`). -/
structure ScanItem where
  id : Nat
  name : List Char
  acronym : List Char
  value : Int
deriving DecidableEq, Repr

/-- The `ACRONYM_BLACKLIST` literal of the source (lines 441-484). -/
def ACRONYM_BLACKLIST : List (List Char) :=
  ["mm".toList, "dc".toList, "w".toList, "l".toList, "f".toList, "op".toList,
   "pc".toList, "nvm".toList, "pm".toList, "dm".toList, "rn".toList, "gg".toList,
   "bb".toList, "gl".toList, "ty".toList, "np".toList, "lf".toList, "ft".toList,
   "nft".toList, "id".toList, "da".toList, "pf".toList, "fb".toList, "sc".toList,
   "rt".toList, "ep".toList, "hb".toList, "sb".toList, "cs".toList, "ci".toList,
   "aa".toList, "bt".toList, "dh".toList, "rs".toList, "gw".toList, "ac".toList,
   "iv".toList, "es".toList, "ss".toList, "bm".toList, "se".toList, "tv".toList]

/-- The name sub-scan of `find_mentioned_items`: for every table entry
whose id is unseen and whose key has at least two words, a substring hit
of the key inside the normalized text buckets the item by resolved value
(`>= threshold` above, `> 0` below, value `0` in neither bucket) and in
every hit case marks the id as seen. -/
def nameScanLoop (textNorm : List Char) (threshold : Int) :
    Lookup → List ScanItem → List ScanItem → List Nat →
      List ScanItem × List ScanItem × List Nat
  | [], above, below, seen => (above, below, seen)
  | (normName, (itemId, d)) :: rest, above, below, seen =>
    if itemId ∈ seen then nameScanLoop textNorm threshold rest above below seen
    else if (splitWs normName).length < 2 then
      nameScanLoop textNorm threshold rest above below seen
    else if containsSub normName textNorm then
      let v := resolvedValue d
      let item : ScanItem := ⟨itemId, d.name, d.acronym, v⟩
      if v ≥ threshold then
        nameScanLoop textNorm threshold rest (above ++ [item]) below (itemId :: seen)
      else if v > 0 then
        nameScanLoop textNorm threshold rest above (below ++ [item]) (itemId :: seen)
      else nameScanLoop textNorm threshold rest above below (itemId :: seen)
    else nameScanLoop textNorm threshold rest above below seen

/-- The acronym sub-scan of `find_mentioned_items`: skip seen ids,
acronyms shorter than two characters and blacklisted acronyms; a 2-3
character acronym must additionally occur uppercased as a token of the
original text; the hit condition is token membership in the lowercased
text, and bucketing is as in the name scan. -/
def acrScanLoop (text textLower : List Char) (threshold : Int) :
    Lookup → List ScanItem → List ScanItem → List Nat →
      List ScanItem × List ScanItem × List Nat
  | [], above, below, seen => (above, below, seen)
  | (acr, (itemId, d)) :: rest, above, below, seen =>
    if itemId ∈ seen then acrScanLoop text textLower threshold rest above below seen
    else if acr.length < 2 then acrScanLoop text textLower threshold rest above below seen
    else if acr ∈ ACRONYM_BLACKLIST then
      acrScanLoop text textLower threshold rest above below seen
    else if acr.length ≤ 3 ∧ acr.map upperChar ∉ splitWs text then
      acrScanLoop text textLower threshold rest above below seen
    else if acr ∈ splitWs textLower then
      let v := resolvedValue d
      let item : ScanItem := ⟨itemId, d.name, d.acronym, v⟩
      if v ≥ threshold then
        acrScanLoop text textLower threshold rest (above ++ [item]) below (itemId :: seen)
      else if v > 0 then
        acrScanLoop text textLower threshold rest above (below ++ [item]) (itemId :: seen)
      else acrScanLoop text textLower threshold rest above below (itemId :: seen)
    else acrScanLoop text textLower threshold rest above below seen

/-- Both sub-scans of `find_mentioned_items`, returning the pre-sort
buckets together with the final `seen_ids` state. -/
def scanCore (text : List Char) (nameLookup acronymLookup : Lookup) (threshold : Int) :
    List ScanItem × List ScanItem × List Nat :=
  let textLower := text.map lowerChar
  let textNorm := normalize_name text
  let (a1, b1, seen1) := nameScanLoop textNorm threshold nameLookup [] [] []
  acrScanLoop text textLower threshold acronymLookup a1 b1 seen1

/-- `find_mentioned_items`: run both sub-scans, then sort each bucket
descending by value (Python stable sort). -/
def find_mentioned_items (text : List Char) (nameLookup acronymLookup : Lookup)
    (threshold : Int) : List ScanItem × List ScanItem :=
  let (a, b, _) := scanCore text nameLookup acronymLookup threshold
  (sortDescBy (fun x => x.value) a, sortDescBy (fun x => x.value) b)

/-! ## screen_text_post (src/main.py lines 521-657) -/

/-- Python `", ".join(...)` over already rendered pieces. -/
def commaJoin : List (List Char) → List Char
  | [] => []
  | [x] => x
  | x :: y :: rest => x ++ ", ".toList ++ commaJoin (y :: rest)

/-- Comma grouping of a digit list given least-significant first. -/
def insertCommasRev : Nat → List Char → List Char
  | _, [] => []
  | k, d :: rest =>
    if k = 3 then ',' :: d :: insertCommasRev 1 rest
    else d :: insertCommasRev (k + 1) rest

/-- Python `f"{v:,}"` for an integer: decimal digits with a comma every
three digits, minus sign in front for negative values. -/
def fmtComma (v : Int) : List Char :=
  let grouped := (insertCommasRev 0 (Nat.toDigits 10 v.natAbs).reverse).reverse
  if v < 0 then '-' :: grouped else grouped

/-- Reason string of the PASS1 lead branch (line 543-544). -/
def mentionsReason (above : List ScanItem) : List Char :=
  "Mentions Rolimons-listed item(s): ".toList ++ commaJoin (above.map (fun m => m.name))

/-- Reason string of the PASS1 below-threshold branch (line 547-548). -/
def belowReason (threshold : Int) (below : List ScanItem) : List Char :=
  "Item(s) found but below R$ ".toList ++ fmtComma threshold ++ " threshold: ".toList ++
    commaJoin (below.map (fun m =>
      m.name ++ " (R$ ".toList ++ fmtComma m.value ++ ")".toList))

/-- Reason string of the PASS2 override branch (lines 644-645). -/
def skipReason (threshold : Int) (matchedBelow : List ScanItem) : List Char :=
  "Item(s) identified by AI but at or below R$ ".toList ++ fmtComma threshold ++
    " threshold: ".toList ++
    commaJoin (matchedBelow.map (fun m =>
      m.name ++ " (R$ ".toList ++ fmtComma m.value ++ ")".toList))

/-- The reply-parsing loop of PASS2 (lines 593-605): the accumulator is
`(verdict, reason, itemsRaw)`; a `verdict:` line sets the verdict to
whether "yes" occurs after the colon of the lowered stripped line, and
`reason:` / `items:` lines keep the stripped text after the colon of the
original-case stripped line. -/
def parseLoop : List (List Char) → Bool × List Char × List Char → Bool × List Char × List Char
  | [], acc => acc
  | line :: rest, (v, r, i) =>
    let ll := (stripChars line).map lowerChar
    if listStartsWith ll "verdict:".toList then
      parseLoop rest (containsSub "yes".toList (afterColon ll), r, i)
    else if listStartsWith ll "reason:".toList then
      parseLoop rest (v, stripChars (afterColon (stripChars line)), i)
    else if listStartsWith ll "items:".toList then
      parseLoop rest (v, r, stripChars (afterColon (stripChars line)))
    else parseLoop rest (v, r, i)

/-- Parse a classifier reply: strip it, split it into lines, and run the
parsing loop with all three fields at their defaults. -/
def parseReply (txt : List Char) : Bool × List Char × List Char :=
  parseLoop (splitOnChar '\n' (stripChars txt)) (false, [], [])

/-- Line 615: split the raw items field on commas, strip each piece,
keep the non-empty ones. -/
def candidateNames (raw : List Char) : List (List Char) :=
  ((splitOnChar ',' raw).map stripChars).filter (fun n => ¬ n.isEmpty)

/-- The PASS2 cross-reference loop (lines 622-640): resolve each
candidate name with `match_single_item` and partition the hits with the
strict comparison `value > threshold`. -/
def pass2Loop (nameLookup acronymLookup : Lookup) (threshold : Int) :
    List (List Char) → List ScanItem × List ScanItem
  | [] => ([], [])
  | n :: rest =>
    let (ma, mb) := pass2Loop nameLookup acronymLookup threshold rest
    match match_single_item n nameLookup acronymLookup with
    | none => (ma, mb)
    | some (itemId, d) =>
      let v := resolvedValue d
      if v > threshold then (⟨itemId, d.name, d.acronym, v⟩ :: ma, mb)
      else (ma, ⟨itemId, d.name, d.acronym, v⟩ :: mb)

/-- PASS2 of `screen_text_post` (lines 583-657), with the classifier
call's outcome passed in: `none` models a call that raised (the
`except` branch returns `(False, "", [])`), `some raw` a reply text. -/
def pass2 (nameLookup acronymLookup : Lookup) (threshold : Int)
    (reply : Option (List Char)) : Bool × List Char × List ScanItem :=
  match reply with
  | none => (false, [], [])
  | some raw =>
    let txt := stripChars raw
    let (verdict, reason, itemsRaw) := parseReply txt
    if verdict = false then (false, reason, [])
    else
      let names :=
        if ¬ itemsRaw.isEmpty ∧ itemsRaw.map lowerChar ≠ "none".toList then
          candidateNames itemsRaw
        else []
      if names.isEmpty then (verdict, reason, [])
      else
        let (ma, mb) := pass2Loop nameLookup acronymLookup threshold names
        if (¬ ma.isEmpty ∨ ¬ mb.isEmpty) ∧ ma.isEmpty then
          (false, skipReason threshold mb, [])
        else if ¬ ma.isEmpty then
          let sorted := sortDescBy (fun x => x.value) ma
          (true,
           reason ++ " (Confirmed item(s): ".toList ++
             commaJoin (sorted.map (fun m => m.name)) ++ ")".toList,
           sorted)
        else (verdict, reason, [])

/-- `screen_text_post`: PASS1 scans the stripped `title ++ " " ++ body`;
a non-empty above bucket is an immediate lead carrying that bucket, a
non-empty below bucket an immediate rejection, and only otherwise does
PASS2 consume the classifier outcome. -/
def screen_text_post (title body : List Char) (nameLookup acronymLookup : Lookup)
    (threshold : Int) (reply : Option (List Char)) : Bool × List Char × List ScanItem :=
  let combined := stripChars (title ++ ' ' :: body)
  let (above, below) := find_mentioned_items combined nameLookup acronymLookup threshold
  if ¬ above.isEmpty then (true, mentionsReason above, above)
  else if ¬ below.isEmpty then (false, belowReason threshold below, [])
  else pass2 nameLookup acronymLookup threshold reply

/-! ## Specification-level predicates -/

/-- Characters that can occur in a `normalize_name` output: lowercase
letters, digits, or a single space. -/
def goodChar (c : Char) : Prop :=
  c = ' ' ∨ (keepChar c = true ∧ isSpaceChar c = false)

/-- No two adjacent spaces. -/
def noDoubleSpace (l : List Char) : Prop :=
  List.Chain' (fun a b => ¬(a = ' ' ∧ b = ' ')) l

instance goodCharDecidable : DecidablePred goodChar := fun c => by
  unfold goodChar
  infer_instance

/-! ## Concrete fixture catalog used by witness theorems -/

/-- A small concrete name-lookup table (normalized name keys). -/
def wNameTable : Lookup :=
  [("domino crown".toList, (1, ⟨"Domino Crown".toList, [], 100, 24000000⟩)),
   ("goldrow".toList, (2, ⟨"Goldrow".toList, [], 316, -1⟩)),
   ("bighead".toList, (3, ⟨"Bighead".toList, [], 5000, -1⟩)),
   ("hooded firelord".toList, (4, ⟨"Hooded Firelord".toList, "HF".toList, 0, 4200000⟩))]

/-- A small concrete acronym-lookup table. -/
def wAcrTable : Lookup :=
  [("hf".toList, (4, ⟨"Hooded Firelord".toList, "HF".toList, 0, 4200000⟩))]

/-- A one-entry table whose item resolves to value `0`. -/
def zTable : Lookup :=
  [("domino crown".toList, (1, ⟨"Domino Crown".toList, [], 0, -1⟩))]

/-- Invariant of the two scan loops of `find_mentioned_items`, with `E`
the table entries already available for matching: bucket ids are
pairwise distinct across and within buckets, bucket values are in the
right threshold range, every bucketed id is marked seen, and every seen
id is bucketed or stems from an entry with non-positive resolved
value. -/
def ScanInv (threshold : Int) (E : Lookup) (above below : List ScanItem)
    (seen : List Nat) : Prop :=
  ((above.map (fun x => x.id) ++ below.map (fun x => x.id)).Nodup)
  ∧ (∀ x ∈ above, x.value ≥ threshold)
  ∧ (∀ x ∈ below, 0 < x.value ∧ x.value < threshold)
  ∧ (∀ x ∈ above, x.id ∈ seen)
  ∧ (∀ x ∈ below, x.id ∈ seen)
  ∧ (∀ i ∈ seen, (∃ x ∈ above, x.id = i) ∨ (∃ x ∈ below, x.id = i) ∨
      ∃ k d, (k, (i, d)) ∈ E ∧ resolvedValue d ≤ 0)

/-! ## Lemmas about collapsePoss -/

theorem collapsePoss_eq_self : ∀ l : List Char, hasPossPattern l = false → collapsePoss l = l
  | [], _ => rfl
  | [_], _ => rfl
  | c₁ :: c₂ :: rest, h => by
    simp only [hasPossPattern, Bool.or_eq_false_iff] at h
    obtain ⟨h1, h2⟩ := h
    have hne : ¬(c₁ = '\'' ∧ c₂ = 's') := by
      rintro ⟨ha, hb⟩
      rw [ha, hb] at h1
      simp at h1
    simp only [collapsePoss, if_neg hne, collapsePoss_eq_self (c₂ :: rest) h2]

theorem hasPossPattern_eq_false_of_no_apostrophe :
    ∀ l : List Char, (∀ c ∈ l, c ≠ '\'') → hasPossPattern l = false
  | [], _ => rfl
  | [_], _ => rfl
  | c₁ :: c₂ :: rest, h => by
    simp only [hasPossPattern, Bool.or_eq_false_iff]
    refine ⟨?_, hasPossPattern_eq_false_of_no_apostrophe (c₂ :: rest) ?_⟩
    · have := h c₁ (by simp)
      simp [this]
    · intro c hc
      exact h c (List.mem_cons_of_mem _ hc)

/-! ## Lemmas about the stable descending sort -/

theorem insertDescBy_perm {α : Type} (key : α → Int) (x : α) :
    ∀ l : List α, (insertDescBy key x l).Perm (x :: l)
  | [] => List.Perm.refl _
  | y :: ys => by
    by_cases h : key x ≥ key y
    · rw [insertDescBy, if_pos h]
    · rw [insertDescBy, if_neg h]
      exact ((insertDescBy_perm key x ys).cons y).trans (List.Perm.swap x y ys)

theorem sortDescBy_perm {α : Type} (key : α → Int) :
    ∀ l : List α, (sortDescBy key l).Perm l
  | [] => List.Perm.refl _
  | x :: xs =>
    (insertDescBy_perm key x (sortDescBy key xs)).trans ((sortDescBy_perm key xs).cons x)

theorem insertDescBy_sorted {α : Type} (key : α → Int) (x : α) :
    ∀ l : List α, List.Sorted (fun a b => key b ≤ key a) l →
      List.Sorted (fun a b => key b ≤ key a) (insertDescBy key x l)
  | [], _ => by simp [insertDescBy]
  | y :: ys, h => by
    obtain ⟨hy, hys⟩ := List.sorted_cons.1 h
    by_cases hxy : key x ≥ key y
    · rw [insertDescBy, if_pos hxy]
      refine List.sorted_cons.2 ⟨?_, h⟩
      intro b hb
      rcases List.mem_cons.1 hb with hb | hb
      · rw [hb]; exact hxy
      · exact le_trans (hy b hb) hxy
    · rw [insertDescBy, if_neg hxy]
      refine List.sorted_cons.2 ⟨?_, insertDescBy_sorted key x ys hys⟩
      intro b hb
      have hb' : b ∈ x :: ys := (insertDescBy_perm key x ys).mem_iff.1 hb
      rcases List.mem_cons.1 hb' with hb' | hb'
      · rw [hb']; exact le_of_lt (lt_of_not_ge hxy)
      · exact hy b hb'

theorem sortDescBy_sorted {α : Type} (key : α → Int) :
    ∀ l : List α, List.Sorted (fun a b => key b ≤ key a) (sortDescBy key l)
  | [] => List.sorted_nil
  | x :: xs => insertDescBy_sorted key x (sortDescBy key xs) (sortDescBy_sorted key xs)

theorem insertDescBy_filter {α : Type} (key : α → Int) (x : α) (v : Int) :
    ∀ l : List α,
      (insertDescBy key x l).filter (fun a => key a = v) =
        if key x = v then x :: l.filter (fun a => key a = v)
        else l.filter (fun a => key a = v)
  | [] => by by_cases h : key x = v <;> simp [insertDescBy, h]
  | y :: ys => by
    have IH := insertDescBy_filter key x v ys
    by_cases hxy : key x ≥ key y
    · rw [insertDescBy, if_pos hxy]
      by_cases hx : key x = v <;> simp [List.filter_cons, hx]
    · rw [insertDescBy, if_neg hxy]
      by_cases hx : key x = v
      · have hyne : ¬ key y = v := by
          intro hyv
          exact hxy (ge_of_eq (by rw [hx, hyv]))
        simp [List.filter_cons, hx, hyne, IH]
      · by_cases hy : key y = v <;> simp [List.filter_cons, hx, hy, IH]

theorem sortDescBy_filter {α : Type} (key : α → Int) (v : Int) :
    ∀ l : List α,
      (sortDescBy key l).filter (fun a => key a = v) = l.filter (fun a => key a = v)
  | [] => rfl
  | x :: xs => by
    rw [sortDescBy, insertDescBy_filter key x v (sortDescBy key xs),
      sortDescBy_filter key v xs, List.filter_cons]
    by_cases hx : key x = v <;> simp [hx]

/-! ## Claim C10 (corrected): one-pass versus two-pass possessive collapse -/

/-- C10 counterexample: on the input `x''sy` the implemented normalize
(two collapse passes) yields `xsy`, while the single-pass variant leaves
an apostrophe that the punctuation stage turns into a space, yielding
`x sy`; the two functions are therefore not equal. -/
theorem C10_counterexample :
    normalize_name_once ['x', '\'', '\'', 's', 'y'] ≠
      normalize_name ['x', '\'', '\'', 's', 'y'] := by decide

/-- C10 amended: the single-pass variant agrees with the implemented
two-pass `normalize_name` on every input for which one collapse pass is
already exhaustive, i.e. whose lowercased, stripped, quote-mapped form
contains no apostrophe-s occurrence after a single pass (inputs with a
doubled apostrophe before an `s` are exactly the ones the extra source
pass is there for). -/
theorem C10_amended (s : List Char)
    (h : hasPossPattern
        (collapsePoss ((stripChars (s.map lowerChar)).map quoteMapChar)) = false) :
    normalize_name_once s = normalize_name s := by
  simp only [normalize_name_once, normalize_name]
  rw [collapsePoss_eq_self _ h]

/-- C10 witness: the amended theorem applies to the ordinary possessive
input `Domino's Crown`. -/
theorem C10_witness :
    hasPossPattern
        (collapsePoss ((stripChars ((("Domino".toList ++ '\'' :: "s Crown".toList)).map
          lowerChar)).map quoteMapChar)) = false
      ∧ normalize_name_once ("Domino".toList ++ '\'' :: "s Crown".toList) =
          normalize_name ("Domino".toList ++ '\'' :: "s Crown".toList) :=
  ⟨by decide, C10_amended _ (by decide)⟩

/-! ## Lemmas towards idempotence of normalize_name -/

theorem map_eq_self_of {α : Type} (f : α → α) :
    ∀ l : List α, (∀ c ∈ l, f c = c) → l.map f = l
  | [], _ => rfl
  | c :: rest, h => by
    rw [List.map_cons, h c (by simp), map_eq_self_of f rest (fun x hx => h x (by simp [hx]))]

theorem mem_stripChars {c : Char} {l : List Char} (h : c ∈ stripChars l) : c ∈ l := by
  unfold stripChars at h
  rw [List.mem_reverse] at h
  have h2 := (List.dropWhile_sublist _).subset h
  rw [List.mem_reverse] at h2
  exact (List.dropWhile_sublist _).subset h2

theorem collapseWsAux_sp_true {c : Char} {rest : List Char} (h : isSpaceChar c = true) :
    collapseWsAux true (c :: rest) = collapseWsAux true rest := by
  simp [collapseWsAux, h]

theorem collapseWsAux_sp_false {c : Char} {rest : List Char} (h : isSpaceChar c = true) :
    collapseWsAux false (c :: rest) = ' ' :: collapseWsAux true rest := by
  simp [collapseWsAux, h]

theorem collapseWsAux_nsp {c : Char} {rest : List Char} (b : Bool)
    (h : isSpaceChar c = false) :
    collapseWsAux b (c :: rest) = c :: collapseWsAux false rest := by
  cases b <;> simp [collapseWsAux, h]

theorem mem_collapseWsAux :
    ∀ (l : List Char) (b : Bool) (c : Char), c ∈ collapseWsAux b l →
      c = ' ' ∨ (c ∈ l ∧ isSpaceChar c = false)
  | [], b, c, h => by simp [collapseWsAux] at h
  | c' :: rest, b, c, h => by
    by_cases hsp : isSpaceChar c'
    · cases b with
      | true =>
        rw [collapseWsAux_sp_true hsp] at h
        rcases mem_collapseWsAux rest true c h with h | ⟨h1, h2⟩
        · exact Or.inl h
        · exact Or.inr ⟨List.mem_cons_of_mem _ h1, h2⟩
      | false =>
        rw [collapseWsAux_sp_false hsp, List.mem_cons] at h
        rcases h with h | h
        · exact Or.inl h
        · rcases mem_collapseWsAux rest true c h with h | ⟨h1, h2⟩
          · exact Or.inl h
          · exact Or.inr ⟨List.mem_cons_of_mem _ h1, h2⟩
    · rw [collapseWsAux_nsp b (by simpa using hsp), List.mem_cons] at h
      rcases h with h | h
      · subst h
        exact Or.inr ⟨List.mem_cons_self _ _, by simpa using hsp⟩
      · rcases mem_collapseWsAux rest false c h with h | ⟨h1, h2⟩
        · exact Or.inl h
        · exact Or.inr ⟨List.mem_cons_of_mem _ h1, h2⟩

theorem goodChar_normalize (s : List Char) : ∀ c ∈ normalize_name s, goodChar c := by
  intro c hc
  have hc2 : c ∈ collapseWs (punctToSpace (collapsePoss (collapsePoss
      ((stripChars (s.map lowerChar)).map quoteMapChar)))) := mem_stripChars hc
  rcases mem_collapseWsAux _ false c hc2 with h | ⟨h1, h2⟩
  · exact Or.inl h
  · rcases List.mem_map.1 h1 with ⟨x, _, hx⟩
    by_cases hk : keepChar x
    · rw [if_pos hk] at hx
      subst hx
      exact Or.inr ⟨hk, h2⟩
    · rw [if_neg hk] at hx
      exact Or.inl hx.symm

theorem head_collapseWsAux_true :
    ∀ (l : List Char) (x : Char), (collapseWsAux true l).head? = some x →
      isSpaceChar x = false
  | [], x, h => by simp [collapseWsAux] at h
  | c :: rest, x, h => by
    by_cases hsp : isSpaceChar c
    · rw [collapseWsAux_sp_true hsp] at h
      exact head_collapseWsAux_true rest x h
    · rw [collapseWsAux_nsp true (by simpa using hsp), List.head?_cons,
        Option.some_inj] at h
      subst h
      simpa using hsp

theorem chain_collapseWsAux :
    ∀ (l : List Char) (b : Bool), noDoubleSpace (collapseWsAux b l)
  | [], _ => List.chain'_nil
  | c :: rest, b => by
    by_cases hsp : isSpaceChar c
    · cases b with
      | true =>
        rw [collapseWsAux_sp_true hsp]
        exact chain_collapseWsAux rest true
      | false =>
        rw [collapseWsAux_sp_false hsp]
        refine List.chain'_cons'.2 ⟨?_, chain_collapseWsAux rest true⟩
        intro y hy
        have hy2 := head_collapseWsAux_true rest y hy
        rintro ⟨-, hy3⟩
        rw [hy3] at hy2
        simp [isSpaceChar] at hy2
    · rw [collapseWsAux_nsp b (by simpa using hsp)]
      refine List.chain'_cons'.2 ⟨?_, chain_collapseWsAux rest false⟩
      intro y _
      rintro ⟨hc, -⟩
      rw [hc] at hsp
      simp [isSpaceChar] at hsp

theorem noDoubleSpace_reverse {l : List Char} (h : noDoubleSpace l) :
    noDoubleSpace l.reverse := by
  unfold noDoubleSpace at *
  rw [List.chain'_reverse]
  exact h.imp (fun a b hab => by rintro ⟨h1, h2⟩; exact hab ⟨h2, h1⟩)

theorem noDoubleSpace_stripChars {l : List Char} (h : noDoubleSpace l) :
    noDoubleSpace (stripChars l) := by
  unfold stripChars
  exact noDoubleSpace_reverse
    ((noDoubleSpace_reverse (h.suffix (List.dropWhile_suffix _))).suffix
      (List.dropWhile_suffix _))

theorem head?_dropWhile_false {p : Char → Bool} {x : Char} :
    ∀ l : List Char, (l.dropWhile p).head? = some x → p x = false
  | [], h => by simp [List.dropWhile] at h
  | c :: rest, h => by
    rw [List.dropWhile_cons] at h
    split at h
    · exact head?_dropWhile_false rest h
    · next hc =>
      simp only [List.head?_cons, Option.some_inj] at h
      subst h
      simpa using hc

theorem stripChars_head {l : List Char} {x : Char} (h : (stripChars l).head? = some x) :
    isSpaceChar x = false := by
  unfold stripChars at h
  rw [List.head?_reverse] at h
  obtain ⟨t, ht⟩ := List.dropWhile_suffix (l := (l.dropWhile isSpaceChar).reverse)
    (p := isSpaceChar)
  have h2 : ((l.dropWhile isSpaceChar).reverse).getLast? = some x := by
    rw [← ht, List.getLast?_append, h]
    rfl
  rw [List.getLast?_reverse] at h2
  exact head?_dropWhile_false _ h2

theorem stripChars_getLast {l : List Char} {x : Char}
    (h : (stripChars l).getLast? = some x) : isSpaceChar x = false := by
  unfold stripChars at h
  rw [List.getLast?_reverse] at h
  exact head?_dropWhile_false _ h

theorem dropWhile_eq_self_of_head {p : Char → Bool} {l : List Char}
    (h : ∀ x, l.head? = some x → p x = false) : l.dropWhile p = l := by
  cases l with
  | nil => rfl
  | cons c rest =>
    rw [List.dropWhile_cons, if_neg]
    simp [h c rfl]

theorem stripChars_eq_self {l : List Char}
    (hh : ∀ x, l.head? = some x → isSpaceChar x = false)
    (hl : ∀ x, l.getLast? = some x → isSpaceChar x = false) : stripChars l = l := by
  unfold stripChars
  rw [dropWhile_eq_self_of_head hh, dropWhile_eq_self_of_head
    (fun x hx => hl x (by rwa [List.head?_reverse] at hx)), List.reverse_reverse]

theorem lowerChar_eq_self_of_good {c : Char} (h : goodChar c) : lowerChar c = c := by
  rcases h with h | ⟨h1, h2⟩
  · subst h; decide
  · unfold lowerChar
    rw [if_neg]
    intro hc
    rw [Bool.and_eq_true] at hc
    obtain ⟨hA, hZ⟩ := hc
    unfold keepChar at h1
    rcases Bool.or_eq_true_iff.1 h1 with h1 | h1
    · rcases Bool.or_eq_true_iff.1 h1 with h1 | h1
      · rw [Bool.and_eq_true] at h1
        exact absurd (le_trans (of_decide_eq_true h1.1) (of_decide_eq_true hZ)) (by decide)
      · rw [Bool.and_eq_true] at h1
        exact absurd (le_trans (of_decide_eq_true hA) (of_decide_eq_true h1.2)) (by decide)
    · rw [h1] at h2; exact absurd h2 (by simp)

theorem quoteMapChar_eq_self_of_good {c : Char} (h : goodChar c) : quoteMapChar c = c := by
  by_cases h1 : c = '’'
  · subst h1; exact absurd h (by decide)
  · by_cases h2 : c = '‘'
    · subst h2; exact absurd h (by decide)
    · unfold quoteMapChar
      rw [if_neg]
      simp [h1, h2]

theorem good_ne_apostrophe {c : Char} (h : goodChar c) : c ≠ '\'' := by
  intro hc
  subst hc
  exact absurd h (by decide)

theorem keepChar_of_good {c : Char} (h : goodChar c) : keepChar c = true := by
  rcases h with h | ⟨h1, _⟩
  · subst h; decide
  · exact h1

theorem collapseWsAux_eq_self :
    ∀ (l : List Char) (b : Bool), (∀ c ∈ l, goodChar c) → noDoubleSpace l →
      (b = true → ∀ y, l.head? = some y → y ≠ ' ') → collapseWsAux b l = l
  | [], b, _, _, _ => by cases b <;> rfl
  | c :: rest, b, hg, hnd, hb => by
    by_cases hsp : isSpaceChar c
    · have hc : c = ' ' := by
        rcases hg c (by simp) with h | ⟨-, h2⟩
        · exact h
        · rw [hsp] at h2; exact absurd h2 (by simp)
      cases b with
      | true => exact absurd hc (hb rfl c rfl)
      | false =>
        rw [collapseWsAux_sp_false hsp, hc]
        rw [collapseWsAux_eq_self rest true
          (fun x hx => hg x (List.mem_cons_of_mem _ hx))
          (List.Chain'.tail hnd)
          (fun _ y hy hy2 => by
            have := (List.chain'_cons'.1 hnd).1 y (by rw [hy]; rfl)
            exact this ⟨hc, hy2⟩)]
    · rw [collapseWsAux_nsp b (by simpa using hsp), collapseWsAux_eq_self rest false
        (fun x hx => hg x (List.mem_cons_of_mem _ hx))
        (List.Chain'.tail hnd)
        (by simp)]

/-! ## Claim C9 (confirmed): normalize_name is idempotent -/

/-- C9: for every input string, `normalize_name (normalize_name s)`
equals `normalize_name s`: the output of a first normalization pass
consists only of lowercase letters, digits and single interior spaces,
and every stage of a second pass is the identity on such strings. -/
theorem C9_normalize_name_idempotent (s : List Char) :
    normalize_name (normalize_name s) = normalize_name s := by
  have hgood : ∀ c ∈ normalize_name s, goodChar c := goodChar_normalize s
  have hnds : noDoubleSpace (normalize_name s) := by
    unfold normalize_name
    exact noDoubleSpace_stripChars (chain_collapseWsAux _ false)
  have hhead : ∀ x, (normalize_name s).head? = some x → isSpaceChar x = false := by
    intro x hx
    unfold normalize_name at hx
    exact stripChars_head hx
  have hlast : ∀ x, (normalize_name s).getLast? = some x → isSpaceChar x = false := by
    intro x hx
    unfold normalize_name at hx
    exact stripChars_getLast hx
  set t := normalize_name s with ht
  have h1 : t.map lowerChar = t :=
    map_eq_self_of _ t (fun c hc => lowerChar_eq_self_of_good (hgood c hc))
  have h2 : stripChars t = t := stripChars_eq_self hhead hlast
  have h3 : t.map quoteMapChar = t :=
    map_eq_self_of _ t (fun c hc => quoteMapChar_eq_self_of_good (hgood c hc))
  have h4 : collapsePoss t = t :=
    collapsePoss_eq_self t (hasPossPattern_eq_false_of_no_apostrophe t
      (fun c hc => good_ne_apostrophe (hgood c hc)))
  have h5 : punctToSpace t = t :=
    map_eq_self_of _ t (fun c hc => by rw [if_pos (keepChar_of_good (hgood c hc))])
  have h6 : collapseWs t = t :=
    collapseWsAux_eq_self t false hgood hnds (by simp)
  calc normalize_name t
      = stripChars (collapseWs (punctToSpace (collapsePoss (collapsePoss
          ((stripChars (t.map lowerChar)).map quoteMapChar))))) := rfl
    _ = t := by rw [h1, h2, h3, h4, h4, h5, h6, h2]

/-! ## Claim C1 (confirmed): PASS1 decides before the classifier runs -/

theorem screen_text_post_cases (title body : List Char) (nameLookup acronymLookup : Lookup)
    (threshold : Int) (r : Option (List Char)) (above below : List ScanItem)
    (hab : find_mentioned_items (stripChars (title ++ ' ' :: body))
        nameLookup acronymLookup threshold = (above, below)) :
    screen_text_post title body nameLookup acronymLookup threshold r =
      if ¬ above.isEmpty then (true, mentionsReason above, above)
      else if ¬ below.isEmpty then (false, belowReason threshold below, [])
      else pass2 nameLookup acronymLookup threshold r := by
  unfold screen_text_post
  simp only []
  rw [hab]

/-- C1: with `(above, below)` the PASS1 scan result of the combined
title and body, a non-empty `above` bucket makes `screen_text_post`
return a lead carrying exactly that bucket, an empty `above` with a
non-empty `below` bucket makes it return a non-lead with no matched
items, and in both cases the returned value does not depend on the
classifier outcome (the classifier is never consulted); only when both
buckets are empty is the result the PASS2 computation on the classifier
outcome. -/
theorem C1_pass1_terminal (title body : List Char) (nameLookup acronymLookup : Lookup)
    (threshold : Int) (reply : Option (List Char)) (above below : List ScanItem)
    (hab : find_mentioned_items (stripChars (title ++ ' ' :: body))
        nameLookup acronymLookup threshold = (above, below)) :
    (above ≠ [] →
      screen_text_post title body nameLookup acronymLookup threshold reply =
          (true, mentionsReason above, above)
        ∧ ∀ reply2, screen_text_post title body nameLookup acronymLookup threshold reply2 =
            screen_text_post title body nameLookup acronymLookup threshold reply)
    ∧ (above = [] → below ≠ [] →
      screen_text_post title body nameLookup acronymLookup threshold reply =
          (false, belowReason threshold below, [])
        ∧ ∀ reply2, screen_text_post title body nameLookup acronymLookup threshold reply2 =
            screen_text_post title body nameLookup acronymLookup threshold reply)
    ∧ (above = [] → below = [] →
      screen_text_post title body nameLookup acronymLookup threshold reply =
        pass2 nameLookup acronymLookup threshold reply) := by
  refine ⟨fun ha => ⟨?_, fun reply2 => ?_⟩, fun ha hb => ⟨?_, fun reply2 => ?_⟩,
    fun ha hb => ?_⟩
  · rw [screen_text_post_cases title body nameLookup acronymLookup threshold reply
      above below hab]
    simp [List.isEmpty_iff, ha]
  · rw [screen_text_post_cases title body nameLookup acronymLookup threshold reply
      above below hab,
      screen_text_post_cases title body nameLookup acronymLookup threshold reply2
      above below hab]
    simp [List.isEmpty_iff, ha]
  · rw [screen_text_post_cases title body nameLookup acronymLookup threshold reply
      above below hab]
    simp [List.isEmpty_iff, ha, hb]
  · rw [screen_text_post_cases title body nameLookup acronymLookup threshold reply
      above below hab,
      screen_text_post_cases title body nameLookup acronymLookup threshold reply2
      above below hab]
    simp [List.isEmpty_iff, ha, hb]
  · rw [screen_text_post_cases title body nameLookup acronymLookup threshold reply
      above below hab]
    simp [List.isEmpty_iff, ha, hb]

/-- C1 witness: a title mentioning a high-value two-word catalog item is
an immediate lead carrying that item, independently of the classifier. -/
theorem C1_witness :
    screen_text_post "selling domino crown".toList [] wNameTable wAcrTable 100000 none =
        (true, mentionsReason [⟨1, "Domino Crown".toList, [], 24000000⟩],
          [⟨1, "Domino Crown".toList, [], 24000000⟩])
      ∧ screen_text_post "selling domino crown".toList [] wNameTable wAcrTable 100000
          (some "VERDICT: no".toList) =
        screen_text_post "selling domino crown".toList [] wNameTable wAcrTable 100000 none := by
  have h := C1_pass1_terminal "selling domino crown".toList [] wNameTable wAcrTable 100000
    none [⟨1, "Domino Crown".toList, [], 24000000⟩] [] (by decide)
  exact ⟨(h.1 (by decide)).1, (h.1 (by decide)).2 (some "VERDICT: no".toList)⟩

/-! ## Claim C8 (confirmed): degraded classifier outcomes never raise -/

theorem parseLoop_verdict_default :
    ∀ (lines : List (List Char)) (acc : Bool × List Char × List Char),
      (∀ line ∈ lines,
        listStartsWith ((stripChars line).map lowerChar) "verdict:".toList = false) →
      (parseLoop lines acc).1 = acc.1
  | [], _, _ => rfl
  | line :: rest, (v, r, i), h => by
    have hline := h line (by simp)
    have hrest : ∀ l ∈ rest,
        listStartsWith ((stripChars l).map lowerChar) "verdict:".toList = false :=
      fun l hl => h l (List.mem_cons_of_mem _ hl)
    simp only [parseLoop, hline, Bool.false_eq_true, if_false]
    split
    · exact parseLoop_verdict_default rest _ hrest
    · split
      · exact parseLoop_verdict_default rest _ hrest
      · exact parseLoop_verdict_default rest _ hrest

theorem parseLoop_reason_default :
    ∀ (lines : List (List Char)) (acc : Bool × List Char × List Char),
      (∀ line ∈ lines,
        listStartsWith ((stripChars line).map lowerChar) "reason:".toList = false) →
      (parseLoop lines acc).2.1 = acc.2.1
  | [], _, _ => rfl
  | line :: rest, (v, r, i), h => by
    have hline := h line (by simp)
    have hrest : ∀ l ∈ rest,
        listStartsWith ((stripChars l).map lowerChar) "reason:".toList = false :=
      fun l hl => h l (List.mem_cons_of_mem _ hl)
    simp only [parseLoop, hline, Bool.false_eq_true, if_false]
    split
    · exact parseLoop_reason_default rest _ hrest
    · split
      · exact parseLoop_reason_default rest _ hrest
      · exact parseLoop_reason_default rest _ hrest

theorem pass2_of_verdict_false (nameLookup acronymLookup : Lookup) (threshold : Int)
    (raw : List Char) (hv : (parseReply (stripChars raw)).1 = false) :
    pass2 nameLookup acronymLookup threshold (some raw) =
      (false, (parseReply (stripChars raw)).2.1, []) := by
  rcases hpr : parseReply (stripChars raw) with ⟨v, r, i⟩
  rw [hpr] at hv
  simp only at hv
  subst hv
  unfold pass2
  simp only []
  rw [hpr]
  simp

/-- C8: with empty PASS1 buckets, a structurally failing classifier call
(`none`) makes `screen_text_post` return a non-lead with empty reason
and no matched items; a reply none of whose lines starts (after strip
and lowercase) with `verdict:` parses to a false verdict and therefore
produces a non-lead carrying the parsed reason and no matched items; a
reply with no `reason:` line parses to an empty reason. -/
theorem C8_degraded_classifier (title body : List Char)
    (nameLookup acronymLookup : Lookup) (threshold : Int) (raw : List Char)
    (hEmpty : find_mentioned_items (stripChars (title ++ ' ' :: body))
        nameLookup acronymLookup threshold = ([], [])) :
    screen_text_post title body nameLookup acronymLookup threshold none = (false, [], [])
    ∧ ((∀ line ∈ splitOnChar '\n' (stripChars (stripChars raw)),
          listStartsWith ((stripChars line).map lowerChar) "verdict:".toList = false) →
        (parseReply (stripChars raw)).1 = false
        ∧ screen_text_post title body nameLookup acronymLookup threshold (some raw) =
            (false, (parseReply (stripChars raw)).2.1, []))
    ∧ ((∀ line ∈ splitOnChar '\n' (stripChars (stripChars raw)),
          listStartsWith ((stripChars line).map lowerChar) "reason:".toList = false) →
        (parseReply (stripChars raw)).2.1 = []) := by
  refine ⟨?_, fun hv => ?_, fun hr => ?_⟩
  · rw [screen_text_post_cases title body nameLookup acronymLookup threshold none
      [] [] hEmpty]
    simp [pass2]
  · have hfalse : (parseReply (stripChars raw)).1 = false := by
      unfold parseReply
      exact parseLoop_verdict_default _ _ hv
    refine ⟨hfalse, ?_⟩
    rw [screen_text_post_cases title body nameLookup acronymLookup threshold (some raw)
      [] [] hEmpty]
    simp only [List.isEmpty_nil, not_true, if_neg, if_false]
    exact pass2_of_verdict_false nameLookup acronymLookup threshold raw hfalse
  · unfold parseReply
    exact parseLoop_reason_default _ _ hr

/-- C8 witness: a scan-free post with a reply containing no recognized
lines degrades to a non-lead with empty reason and items. -/
theorem C8_witness :
    screen_text_post "hello there".toList [] wNameTable wAcrTable 100000 none =
        (false, [], [])
      ∧ (parseReply (stripChars "garbage\nnothing here".toList)).1 = false
      ∧ screen_text_post "hello there".toList [] wNameTable wAcrTable 100000
          (some "garbage\nnothing here".toList) =
        (false, (parseReply (stripChars "garbage\nnothing here".toList)).2.1, [])
      ∧ (parseReply (stripChars "garbage\nnothing here".toList)).2.1 = [] := by
  have h := C8_degraded_classifier "hello there".toList [] wNameTable wAcrTable 100000
    "garbage\nnothing here".toList (by decide)
  exact ⟨h.1, (h.2.1 (by decide)).1, (h.2.1 (by decide)).2, h.2.2 (by decide)⟩

/-! ## Claim C2 (confirmed): the PASS2 cross-check overrides the classifier -/

theorem pass2Loop_above_bound (nameLookup acronymLookup : Lookup) (threshold : Int) :
    ∀ names : List (List Char),
      ∀ x ∈ (pass2Loop nameLookup acronymLookup threshold names).1, x.value > threshold
  | [], x, hx => by simp [pass2Loop] at hx
  | n :: rest, x, hx => by
    have IH := pass2Loop_above_bound nameLookup acronymLookup threshold rest
    unfold pass2Loop at hx
    simp only [] at hx
    rcases hrec : pass2Loop nameLookup acronymLookup threshold rest with ⟨ma, mb⟩
    rw [hrec] at hx IH
    rcases hm : match_single_item n nameLookup acronymLookup with _ | ⟨itemId, d⟩
    · rw [hm] at hx
      exact IH x hx
    · rw [hm] at hx
      simp only [] at hx
      by_cases hv : resolvedValue d > threshold
      · rw [if_pos hv] at hx
        rcases List.mem_cons.1 hx with hx | hx
        · rw [hx]; exact hv
        · exact IH x hx
      · rw [if_neg hv] at hx
        exact IH x hx

theorem pass2Loop_below_bound (nameLookup acronymLookup : Lookup) (threshold : Int) :
    ∀ names : List (List Char),
      ∀ x ∈ (pass2Loop nameLookup acronymLookup threshold names).2, x.value ≤ threshold
  | [], x, hx => by simp [pass2Loop] at hx
  | n :: rest, x, hx => by
    have IH := pass2Loop_below_bound nameLookup acronymLookup threshold rest
    unfold pass2Loop at hx
    simp only [] at hx
    rcases hrec : pass2Loop nameLookup acronymLookup threshold rest with ⟨ma, mb⟩
    rw [hrec] at hx IH
    rcases hm : match_single_item n nameLookup acronymLookup with _ | ⟨itemId, d⟩
    · rw [hm] at hx
      exact IH x hx
    · rw [hm] at hx
      simp only [] at hx
      by_cases hv : resolvedValue d > threshold
      · rw [if_pos hv] at hx
        exact IH x hx
      · rw [if_neg hv] at hx
        rcases List.mem_cons.1 hx with hx | hx
        · rw [hx]
          exact le_of_not_lt hv
        · exact IH x hx

theorem pass2Loop_mem_below (nameLookup acronymLookup : Lookup) (threshold : Int) :
    ∀ (names : List (List Char)) (n : List Char), n ∈ names →
      ∀ (itemId : Nat) (d : ItemData),
        match_single_item n nameLookup acronymLookup = some (itemId, d) →
        resolvedValue d ≤ threshold →
        (⟨itemId, d.name, d.acronym, resolvedValue d⟩ : ScanItem) ∈
          (pass2Loop nameLookup acronymLookup threshold names).2
  | [], n, hn, _, _, _, _ => by simp at hn
  | m :: rest, n, hn, itemId, d, hm, hv => by
    unfold pass2Loop
    simp only []
    rcases hrec : pass2Loop nameLookup acronymLookup threshold rest with ⟨ma, mb⟩
    rcases List.mem_cons.1 hn with hn | hn
    · subst hn
      rw [hm]
      simp only []
      rw [if_neg (not_lt.2 hv)]
      exact List.mem_cons_self _ _
    · have IH := pass2Loop_mem_below nameLookup acronymLookup threshold rest n hn
        itemId d hm hv
      rw [hrec] at IH
      rcases hm2 : match_single_item m nameLookup acronymLookup with _ | ⟨itemId2, d2⟩
      · exact IH
      · simp only []
        by_cases hv2 : resolvedValue d2 > threshold
        · rw [if_pos hv2]
          exact IH
        · rw [if_neg hv2]
          exact List.mem_cons_of_mem _ IH

/-- C2: suppose PASS1 found nothing, the classifier reply parses to a
true verdict with a non-empty candidate list, and the PASS2
cross-reference partition has an empty `matchedAbove` (strict `>`
comparison) but a non-empty `matchedBelow`; then `screen_text_post`
returns a non-lead with no matched items, overriding the positive
verdict.  Moreover every `matchedAbove` element is strictly above the
threshold, every `matchedBelow` element is at or below it, and a
candidate resolving to exactly the threshold value lands in
`matchedBelow`. -/
theorem C2_pass2_override (title body : List Char) (nameLookup acronymLookup : Lookup)
    (threshold : Int) (raw : List Char) (reason itemsRaw : List Char)
    (names : List (List Char)) (ma mb : List ScanItem)
    (hEmpty : find_mentioned_items (stripChars (title ++ ' ' :: body))
        nameLookup acronymLookup threshold = ([], []))
    (hparse : parseReply (stripChars raw) = (true, reason, itemsRaw))
    (hnames : (if ¬ itemsRaw.isEmpty ∧ itemsRaw.map lowerChar ≠ "none".toList then
        candidateNames itemsRaw else []) = names)
    (hne : names ≠ [])
    (hpart : pass2Loop nameLookup acronymLookup threshold names = (ma, mb))
    (hma : ma = [])
    (hmb : mb ≠ []) :
    screen_text_post title body nameLookup acronymLookup threshold (some raw) =
        (false, skipReason threshold mb, [])
      ∧ (∀ x ∈ ma, x.value > threshold)
      ∧ (∀ x ∈ mb, x.value ≤ threshold)
      ∧ (∀ n ∈ names, ∀ (itemId : Nat) (d : ItemData),
          match_single_item n nameLookup acronymLookup = some (itemId, d) →
          resolvedValue d = threshold →
          (⟨itemId, d.name, d.acronym, resolvedValue d⟩ : ScanItem) ∈ mb) := by
  refine ⟨?_, ?_, ?_, ?_⟩
  · rw [screen_text_post_cases title body nameLookup acronymLookup threshold (some raw)
      [] [] hEmpty]
    simp only [List.isEmpty_nil, not_true, if_neg, if_false]
    unfold pass2
    simp only []
    rw [hparse]
    simp only []
    rw [if_neg (by simp), hnames, hpart]
    rw [if_neg (by simp [List.isEmpty_iff, hne])]
    rw [if_pos (by simp [List.isEmpty_iff, hma, hmb])]
  · intro x hx
    have := pass2Loop_above_bound nameLookup acronymLookup threshold names x
    rw [hpart] at this
    exact this hx
  · intro x hx
    have := pass2Loop_below_bound nameLookup acronymLookup threshold names x
    rw [hpart] at this
    exact this hx
  · intro n hn itemId d hm hv
    have := pass2Loop_mem_below nameLookup acronymLookup threshold names n hn itemId d hm
      (le_of_eq hv)
    rw [hpart] at this
    exact this

/-- C2 witness: the spec scenario itself — verdict yes with
`ITEMS: Bighead`, catalog value 5000, threshold 100000 — is rejected. -/
theorem C2_witness :
    screen_text_post "hello there".toList [] wNameTable wAcrTable 100000
        (some "VERDICT: yes\nREASON: selling\nITEMS: Bighead".toList) =
      (false, skipReason 100000 [⟨3, "Bighead".toList, [], 5000⟩], []) := by
  have h := C2_pass2_override "hello there".toList [] wNameTable wAcrTable 100000
    "VERDICT: yes\nREASON: selling\nITEMS: Bighead".toList
    "selling".toList "Bighead".toList ["Bighead".toList]
    [] [⟨3, "Bighead".toList, [], 5000⟩]
    (by decide) (by decide) (by decide) (by decide) (by decide) rfl (by decide)
  exact h.1

/-! ## Claim C4 (confirmed): the three match tiers and the prefix tier -/

theorem listStartsWith_length :
    ∀ s pat : List Char, listStartsWith s pat = true → pat.length ≤ s.length
  | _, [], _ => by simp
  | [], _ :: _, h => by simp [listStartsWith] at h
  | a :: as, b :: bs, h => by
    simp only [listStartsWith, Bool.and_eq_true] at h
    simpa using listStartsWith_length as bs h.2

theorem prefixFoldGo_mono (detNorm : List Char) :
    ∀ (tbl : Lookup) (st : Option Entry × Nat), st.2 ≤ (prefixFoldGo detNorm tbl st).2
  | [], st => le_refl _
  | p :: rest, st => by
    unfold prefixFoldGo
    split
    · next hc =>
      exact le_trans (le_of_lt hc.2) (prefixFoldGo_mono detNorm rest (some p.2, p.1.length))
    · exact prefixFoldGo_mono detNorm rest st

theorem prefixFoldGo_none (detNorm : List Char) :
    ∀ (tbl : Lookup) (st : Option Entry × Nat),
      (prefixFoldGo detNorm tbl st).1 = none →
        prefixFoldGo detNorm tbl st = st ∧
          ∀ p ∈ tbl, ¬(listStartsWith p.1 detNorm = true ∧ p.1.length > st.2)
  | [], st, _ => ⟨rfl, by simp⟩
  | p :: rest, st, h => by
    unfold prefixFoldGo at h ⊢
    split at h
    · next hc =>
      obtain ⟨heq, -⟩ := prefixFoldGo_none detNorm rest (some p.2, p.1.length) h
      rw [heq] at h
      simp at h
    · next hc =>
      obtain ⟨heq, hall⟩ := prefixFoldGo_none detNorm rest st h
      rw [if_neg hc]
      refine ⟨heq, ?_⟩
      intro q hq
      rcases List.mem_cons.1 hq with hq | hq
      · rw [hq]; exact hc
      · exact hall q hq

theorem prefixFoldGo_some (detNorm : List Char) :
    ∀ (tbl : Lookup) (st : Option Entry × Nat) (e : Entry),
      (prefixFoldGo detNorm tbl st).1 = some e →
        (st.1 = some e ∧ (prefixFoldGo detNorm tbl st).2 = st.2) ∨
          ∃ k, (k, e) ∈ tbl ∧ listStartsWith k detNorm = true ∧
            k.length = (prefixFoldGo detNorm tbl st).2
  | [], st, e, h => Or.inl ⟨h, rfl⟩
  | p :: rest, st, e, h => by
    unfold prefixFoldGo at h ⊢
    split at h
    · next hc =>
      rw [if_pos hc]
      rcases prefixFoldGo_some detNorm rest (some p.2, p.1.length) e h with ⟨h1, h2⟩ | ⟨k, hk⟩
      · simp only [Option.some_inj] at h1
        exact Or.inr ⟨p.1, by simp [← h1], hc.1, by rw [h2]⟩
      · exact Or.inr ⟨k, List.mem_cons_of_mem _ hk.1, hk.2.1, hk.2.2⟩
    · next hc =>
      rw [if_neg hc]
      rcases prefixFoldGo_some detNorm rest st e h with h1 | ⟨k, hk⟩
      · exact Or.inl h1
      · exact Or.inr ⟨k, List.mem_cons_of_mem _ hk.1, hk.2.1, hk.2.2⟩

theorem prefixFoldGo_max (detNorm : List Char) :
    ∀ (tbl : Lookup) (st : Option Entry × Nat) (q : List Char × Entry),
      q ∈ tbl → listStartsWith q.1 detNorm = true →
        q.1.length ≤ (prefixFoldGo detNorm tbl st).2
  | [], st, q, hq, _ => by simp at hq
  | p :: rest, st, q, hq, hs => by
    unfold prefixFoldGo
    rcases List.mem_cons.1 hq with hq | hq
    · subst hq
      split
    -- the current entry either updates the best length or is already dominated
      · exact prefixFoldGo_mono detNorm rest (some q.2, q.1.length)
      · next hc =>
        have : q.1.length ≤ st.2 := by
          by_contra hlen
          exact hc ⟨hs, lt_of_not_ge hlen⟩
        exact le_trans this (prefixFoldGo_mono detNorm rest st)
    · split
      · exact prefixFoldGo_max detNorm rest _ q hq hs
      · exact prefixFoldGo_max detNorm rest st q hq hs

/-- C4: `match_single_item` tries its tiers in order with the first hit
winning: a normalized-name hit is returned as is; on a name miss an
acronym hit is returned; on a double miss the prefix tier runs only when
the normalized candidate has at least two words and eight characters
(otherwise the result is `none`), and when it runs it returns `none`
exactly when no table key starts with the candidate, and otherwise some
entry whose key starts with the candidate and has maximal length among
all starting keys. -/
theorem C4_match_single_item_tiers (det : List Char) (nameLookup acronymLookup : Lookup) :
    (∀ e, tableLookup nameLookup (normalize_name det) = some e →
      match_single_item det nameLookup acronymLookup = some e)
    ∧ (tableLookup nameLookup (normalize_name det) = none →
        ∀ e, tableLookup acronymLookup ((stripChars det).map lowerChar) = some e →
          match_single_item det nameLookup acronymLookup = some e)
    ∧ (tableLookup nameLookup (normalize_name det) = none →
        tableLookup acronymLookup ((stripChars det).map lowerChar) = none →
        ¬((splitWs (normalize_name det)).length ≥ 2 ∧ (normalize_name det).length ≥ 8) →
        match_single_item det nameLookup acronymLookup = none)
    ∧ (tableLookup nameLookup (normalize_name det) = none →
        tableLookup acronymLookup ((stripChars det).map lowerChar) = none →
        (splitWs (normalize_name det)).length ≥ 2 → (normalize_name det).length ≥ 8 →
        ((∀ p ∈ nameLookup, listStartsWith p.1 (normalize_name det) = false) →
            match_single_item det nameLookup acronymLookup = none)
        ∧ (∀ e, match_single_item det nameLookup acronymLookup = some e →
            ∃ k, (k, e) ∈ nameLookup ∧ listStartsWith k (normalize_name det) = true ∧
              ∀ q ∈ nameLookup, listStartsWith q.1 (normalize_name det) = true →
                q.1.length ≤ k.length)
        ∧ ((∃ p ∈ nameLookup, listStartsWith p.1 (normalize_name det) = true) →
            match_single_item det nameLookup acronymLookup ≠ none)) := by
  refine ⟨fun e he => ?_, fun hn e he => ?_, fun hn ha hguard => ?_,
    fun hn ha hw hl => ⟨fun hnone => ?_, fun e he => ?_, fun ⟨p, hp, hps⟩ => ?_⟩⟩
  · unfold match_single_item
    simp only []
    rw [he]
  · unfold match_single_item
    simp only []
    rw [hn, he]
  · unfold match_single_item
    simp only []
    rw [hn, ha, if_neg hguard]
  · unfold match_single_item
    simp only []
    rw [hn, ha, if_pos ⟨hw, hl⟩]
    unfold prefixFold
    cases hres : (prefixFoldGo (normalize_name det) nameLookup (none, 0)).1 with
    | none => rfl
    | some e =>
      rcases prefixFoldGo_some _ nameLookup (none, 0) e hres with ⟨h1, -⟩ | ⟨k, hk, hks, -⟩
      · simp at h1
      · exfalso
        have hkf := hnone (k, e) hk
        simp only [] at hkf
        rw [hkf] at hks
        exact Bool.noConfusion hks
  · have he2 : (prefixFold nameLookup (normalize_name det)).1 = some e := by
      unfold match_single_item at he
      simp only [] at he
      rw [hn, ha, if_pos ⟨hw, hl⟩] at he
      exact he
    unfold prefixFold at he2
    rcases prefixFoldGo_some _ nameLookup (none, 0) e he2 with ⟨h1, -⟩ | ⟨k, hk, hks, hkl⟩
    · simp at h1
    · refine ⟨k, hk, hks, fun q hq hqs => ?_⟩
      rw [hkl]
      exact prefixFoldGo_max _ nameLookup (none, 0) q hq hqs
  · unfold match_single_item
    simp only []
    rw [hn, ha, if_pos ⟨hw, hl⟩]
    unfold prefixFold
    intro hres
    obtain ⟨-, hall⟩ := prefixFoldGo_none _ nameLookup (none, 0) hres
    refine hall p hp ⟨hps, ?_⟩
    have h8 := listStartsWith_length p.1 (normalize_name det) hps
    have : 0 < (normalize_name det).length := lt_of_lt_of_le (by norm_num) hl
    simpa using lt_of_lt_of_le this h8

/-- C4 witness: the truncated candidate `domino cro` (two words, ten
characters) misses both exact tiers and resolves through the prefix
tier to the longest extension `domino crown`. -/
theorem C4_witness :
    match_single_item "domino cro".toList wNameTable wAcrTable ≠ none ∧
    ∃ k, (k, ((1 : Nat), (⟨"Domino Crown".toList, [], 100, 24000000⟩ : ItemData))) ∈
        wNameTable ∧
      listStartsWith k (normalize_name "domino cro".toList) = true ∧
      ∀ q ∈ wNameTable, listStartsWith q.1 (normalize_name "domino cro".toList) = true →
        q.1.length ≤ k.length := by
  have h := C4_match_single_item_tiers "domino cro".toList wNameTable wAcrTable
  have h4 := h.2.2.2 (by decide) (by decide) (by decide) (by decide)
  refine ⟨h4.2.2 ⟨("domino crown".toList, (1, ⟨"Domino Crown".toList, [], 100, 24000000⟩)),
    by decide, by decide⟩, h4.2.1 _ (by decide)⟩

/-! ## Claim C7 (confirmed): match_items_rolimons_only batch contract -/

theorem matchLoop_ge (nameLookup acronymLookup : Lookup) (threshold : Int) :
    ∀ (dets : List DetectedMention) (seen : List Nat) (r : MatchResult),
      r ∈ matchLoop nameLookup acronymLookup threshold dets seen → r.value ≥ threshold
  | [], _, r, hr => by simp [matchLoop] at hr
  | det :: rest, seen, r, hr => by
    unfold matchLoop at hr
    rcases hm : match_single_item det.name nameLookup acronymLookup with _ | ⟨itemId, d⟩
    · rw [hm] at hr
      exact matchLoop_ge nameLookup acronymLookup threshold rest seen r hr
    · rw [hm] at hr
      simp only [] at hr
      by_cases hseen : itemId ∈ seen
      · rw [if_pos hseen] at hr
        exact matchLoop_ge nameLookup acronymLookup threshold rest seen r hr
      · rw [if_neg hseen] at hr
        by_cases hv : resolvedValue d < threshold
        · rw [if_pos hv] at hr
          exact matchLoop_ge nameLookup acronymLookup threshold rest seen r hr
        · rw [if_neg hv] at hr
          rcases List.mem_cons.1 hr with hr | hr
          · subst hr
            exact le_of_not_lt hv
          · exact matchLoop_ge nameLookup acronymLookup threshold rest (itemId :: seen) r hr

theorem matchLoop_nodup (nameLookup acronymLookup : Lookup) (threshold : Int) :
    ∀ (dets : List DetectedMention) (seen : List Nat),
      ((matchLoop nameLookup acronymLookup threshold dets seen).map
          (fun r => r.id)).Nodup
        ∧ ∀ r ∈ matchLoop nameLookup acronymLookup threshold dets seen, r.id ∉ seen
  | [], seen => by simp [matchLoop]
  | det :: rest, seen => by
    unfold matchLoop
    rcases hm : match_single_item det.name nameLookup acronymLookup with _ | ⟨itemId, d⟩
    · exact matchLoop_nodup nameLookup acronymLookup threshold rest seen
    · simp only []
      by_cases hseen : itemId ∈ seen
      · rw [if_pos hseen]
        exact matchLoop_nodup nameLookup acronymLookup threshold rest seen
      · rw [if_neg hseen]
        by_cases hv : resolvedValue d < threshold
        · rw [if_pos hv]
          exact matchLoop_nodup nameLookup acronymLookup threshold rest seen
        · rw [if_neg hv]
          obtain ⟨IH1, IH2⟩ :=
            matchLoop_nodup nameLookup acronymLookup threshold rest (itemId :: seen)
          refine ⟨?_, ?_⟩
          · rw [List.map_cons, List.nodup_cons]
            refine ⟨?_, IH1⟩
            intro hmem
            rcases List.mem_map.1 hmem with ⟨r, hr, hrid⟩
            exact IH2 r hr (by rw [hrid]; exact List.mem_cons_self _ _)
          · intro r hr
            rcases List.mem_cons.1 hr with hr | hr
            · subst hr
              exact hseen
            · intro hrs
              exact IH2 r hr (List.mem_cons_of_mem _ hrs)

theorem matchLoop_first (nameLookup acronymLookup : Lookup) (threshold : Int) :
    ∀ (dets : List DetectedMention) (seen : List Nat) (r : MatchResult),
      r ∈ matchLoop nameLookup acronymLookup threshold dets seen →
      ∃ (i : Nat) (hi : i < dets.length) (d : ItemData),
        match_single_item (dets.get ⟨i, hi⟩).name nameLookup acronymLookup =
            some (r.id, d)
          ∧ resolvedValue d ≥ threshold
          ∧ r = ⟨r.id, d.name, d.acronym, resolvedValue d, (dets.get ⟨i, hi⟩).name⟩
          ∧ ∀ (j : Nat) (hj : j < dets.length), j < i →
              ∀ d', match_single_item (dets.get ⟨j, hj⟩).name nameLookup acronymLookup =
                  some (r.id, d') → resolvedValue d' < threshold
  | [], _, r, hr => by simp [matchLoop] at hr
  | det :: rest, seen, r, hr => by
    have hnotin := (matchLoop_nodup nameLookup acronymLookup threshold
      (det :: rest) seen).2 r hr
    unfold matchLoop at hr
    rcases hm : match_single_item det.name nameLookup acronymLookup with _ | ⟨itemId, d⟩
    · rw [hm] at hr
      obtain ⟨i, hi, d, h1, h2, h3, h4⟩ :=
        matchLoop_first nameLookup acronymLookup threshold rest seen r hr
      refine ⟨i + 1, Nat.succ_lt_succ hi, d, by simpa using h1, h2, by simpa using h3, ?_⟩
      intro j hj hji d' hd'
      cases j with
      | zero =>
        simp only [List.get] at hd'
        rw [hm] at hd'
        exact Option.noConfusion hd'
      | succ j' =>
        simp only [List.get] at hd'
        exact h4 j' (Nat.lt_of_succ_lt_succ hj) (Nat.lt_of_succ_lt_succ hji) d' hd'
    · rw [hm] at hr
      simp only [] at hr
      by_cases hseen : itemId ∈ seen
      · rw [if_pos hseen] at hr
        have hrs := (matchLoop_nodup nameLookup acronymLookup threshold rest seen).2 r hr
        obtain ⟨i, hi, dd, h1, h2, h3, h4⟩ :=
          matchLoop_first nameLookup acronymLookup threshold rest seen r hr
        refine ⟨i + 1, Nat.succ_lt_succ hi, dd, by simpa using h1, h2, by simpa using h3, ?_⟩
        intro j hj hji d' hd'
        cases j with
        | zero =>
          simp only [List.get] at hd'
          rw [hm] at hd'
          simp only [Option.some_inj, Prod.mk.injEq] at hd'
          exact absurd (hd'.1 ▸ hseen) hrs
        | succ j' =>
          simp only [List.get] at hd'
          exact h4 j' (Nat.lt_of_succ_lt_succ hj) (Nat.lt_of_succ_lt_succ hji) d' hd'
      · rw [if_neg hseen] at hr
        by_cases hv : resolvedValue d < threshold
        · rw [if_pos hv] at hr
          obtain ⟨i, hi, dd, h1, h2, h3, h4⟩ :=
            matchLoop_first nameLookup acronymLookup threshold rest seen r hr
          refine ⟨i + 1, Nat.succ_lt_succ hi, dd, by simpa using h1, h2,
            by simpa using h3, ?_⟩
          intro j hj hji d' hd'
          cases j with
          | zero =>
            simp only [List.get] at hd'
            rw [hm] at hd'
            simp only [Option.some_inj, Prod.mk.injEq] at hd'
            rw [← hd'.2]
            exact hv
          | succ j' =>
            simp only [List.get] at hd'
            exact h4 j' (Nat.lt_of_succ_lt_succ hj) (Nat.lt_of_succ_lt_succ hji) d' hd'
        · rw [if_neg hv] at hr
          rcases List.mem_cons.1 hr with hr | hr
          · subst hr
            refine ⟨0, Nat.succ_pos _, d, ?_, le_of_not_lt hv, rfl, ?_⟩
            · exact hm
            · intro j hj hji d' hd'
              exact absurd hji (Nat.not_lt_zero j)
          · have hrs := (matchLoop_nodup nameLookup acronymLookup threshold rest
              (itemId :: seen)).2 r hr
            have hrid : r.id ≠ itemId := fun h => hrs (h ▸ List.mem_cons_self _ _)
            obtain ⟨i, hi, dd, h1, h2, h3, h4⟩ :=
              matchLoop_first nameLookup acronymLookup threshold rest (itemId :: seen) r hr
            refine ⟨i + 1, Nat.succ_lt_succ hi, dd, by simpa using h1, h2,
              by simpa using h3, ?_⟩
            intro j hj hji d' hd'
            cases j with
            | zero =>
              simp only [List.get] at hd'
              rw [hm] at hd'
              simp only [Option.some_inj, Prod.mk.injEq] at hd'
              exact absurd hd'.1.symm hrid
            | succ j' =>
              simp only [List.get] at hd'
              exact h4 j' (Nat.lt_of_succ_lt_succ hj) (Nat.lt_of_succ_lt_succ hji) d' hd'

/-- C7: the batch matcher returns a sequence with pairwise distinct
ids, every element at or above the threshold, sorted descending by
resolved value with ties keeping the relative order of the pre-sort
loop output (stability), each element arising from the first input
mention whose match carries its id with an at-or-above-threshold value,
and the empty sequence (not an error) when no qualifying match exists. -/
theorem C7_match_items_batch (detected : List DetectedMention)
    (nameLookup acronymLookup : Lookup) (threshold : Int) :
    ((match_items_rolimons_only detected nameLookup acronymLookup threshold).map
        (fun r => r.id)).Nodup
    ∧ (∀ r ∈ match_items_rolimons_only detected nameLookup acronymLookup threshold,
        r.value ≥ threshold)
    ∧ List.Sorted (fun a b => b.value ≤ a.value)
        (match_items_rolimons_only detected nameLookup acronymLookup threshold)
    ∧ (∀ v : Int,
        (match_items_rolimons_only detected nameLookup acronymLookup threshold).filter
            (fun r => r.value = v) =
          (matchLoop nameLookup acronymLookup threshold detected []).filter
            (fun r => r.value = v))
    ∧ (∀ r ∈ match_items_rolimons_only detected nameLookup acronymLookup threshold,
        ∃ (i : Nat) (hi : i < detected.length) (d : ItemData),
          match_single_item (detected.get ⟨i, hi⟩).name nameLookup acronymLookup =
              some (r.id, d)
            ∧ resolvedValue d ≥ threshold
            ∧ r = ⟨r.id, d.name, d.acronym, resolvedValue d, (detected.get ⟨i, hi⟩).name⟩
            ∧ ∀ (j : Nat) (hj : j < detected.length), j < i →
                ∀ d', match_single_item (detected.get ⟨j, hj⟩).name nameLookup
                    acronymLookup = some (r.id, d') → resolvedValue d' < threshold)
    ∧ ((∀ det ∈ detected, ∀ e, match_single_item det.name nameLookup acronymLookup =
          some e → resolvedValue e.2 < threshold) →
        match_items_rolimons_only detected nameLookup acronymLookup threshold = []) := by
  have hperm : (match_items_rolimons_only detected nameLookup acronymLookup
      threshold).Perm (matchLoop nameLookup acronymLookup threshold detected []) :=
    sortDescBy_perm _ _
  refine ⟨?_, ?_, ?_, ?_, ?_, ?_⟩
  · exact ((matchLoop_nodup nameLookup acronymLookup threshold detected []).1).perm
      (hperm.map (fun r => r.id)).symm
  · intro r hr
    exact matchLoop_ge nameLookup acronymLookup threshold detected [] r (hperm.mem_iff.1 hr)
  · exact sortDescBy_sorted _ _
  · intro v
    exact sortDescBy_filter _ v _
  · intro r hr
    exact matchLoop_first nameLookup acronymLookup threshold detected [] r
      (hperm.mem_iff.1 hr)
  · intro hall
    rcases hres : match_items_rolimons_only detected nameLookup acronymLookup threshold
      with _ | ⟨r, rs⟩
    · rfl
    · exfalso
      have hr : r ∈ match_items_rolimons_only detected nameLookup acronymLookup
          threshold := by rw [hres]; exact List.mem_cons_self _ _
      obtain ⟨i, hi, d, h1, h2, -, -⟩ :=
        matchLoop_first nameLookup acronymLookup threshold detected [] r
          (hperm.mem_iff.1 hr)
      exact absurd h2 (not_le.2 (hall (detected.get ⟨i, hi⟩)
        (detected.get_mem i hi) (r.id, d) h1))

/-- C7 witness: a batch with a below-threshold mention, a qualifying
mention and a duplicate-id mention keeps exactly the first qualifying
match. -/
theorem C7_witness :
    ((match_items_rolimons_only
        [⟨"Goldrow".toList, 0⟩, ⟨"Domino Crown".toList, 0⟩, ⟨"domino cro".toList, 0⟩]
        wNameTable wAcrTable 100000).map (fun r => r.id)).Nodup
    ∧ (∀ r ∈ match_items_rolimons_only
        [⟨"Goldrow".toList, 0⟩, ⟨"Domino Crown".toList, 0⟩, ⟨"domino cro".toList, 0⟩]
        wNameTable wAcrTable 100000, r.value ≥ 100000) :=
  ⟨(C7_match_items_batch
      [⟨"Goldrow".toList, 0⟩, ⟨"Domino Crown".toList, 0⟩, ⟨"domino cro".toList, 0⟩]
      wNameTable wAcrTable 100000).1,
   fun r hr => (C7_match_items_batch
      [⟨"Goldrow".toList, 0⟩, ⟨"Domino Crown".toList, 0⟩, ⟨"domino cro".toList, 0⟩]
      wNameTable wAcrTable 100000).2.1 r hr⟩

/-! ## Scan-loop invariants (claims C5, C6, C3) -/

theorem scanInv_mono_E {threshold : Int} {E E' : Lookup} {above below : List ScanItem}
    {seen : List Nat} (hEE : ∀ p ∈ E, p ∈ E') (inv : ScanInv threshold E above below seen) :
    ScanInv threshold E' above below seen := by
  obtain ⟨i1, i2, i3, i4, i5, i6⟩ := inv
  refine ⟨i1, i2, i3, i4, i5, ?_⟩
  intro i hi
  rcases i6 i hi with h | h | ⟨k, d, hkd, hv⟩
  · exact Or.inl h
  · exact Or.inr (Or.inl h)
  · exact Or.inr (Or.inr ⟨k, d, hEE _ hkd, hv⟩)

theorem scanInv_add_above {threshold : Int} {E : Lookup} {above below : List ScanItem}
    {seen : List Nat} (inv : ScanInv threshold E above below seen)
    (itemId : Nat) (d : ItemData) (hnew : itemId ∉ seen)
    (hv : resolvedValue d ≥ threshold) :
    ScanInv threshold E (above ++ [⟨itemId, d.name, d.acronym, resolvedValue d⟩]) below
      (itemId :: seen) := by
  obtain ⟨i1, i2, i3, i4, i5, i6⟩ := inv
  refine ⟨?_, ?_, i3, ?_, ?_, ?_⟩
  · have hnotin : itemId ∉ (above.map (fun x => x.id) ++ below.map (fun x => x.id)) := by
      intro hmem
      rcases List.mem_append.1 hmem with h | h
      · rcases List.mem_map.1 h with ⟨x, hx, hxid⟩
        exact hnew (hxid ▸ i4 x hx)
      · rcases List.mem_map.1 h with ⟨x, hx, hxid⟩
        exact hnew (hxid ▸ i5 x hx)
    have hperm : ((above.map (fun x => x.id) ++ [itemId]) ++
        below.map (fun x => x.id)).Perm
        (itemId :: (above.map (fun x => x.id) ++ below.map (fun x => x.id))) :=
      (List.perm_append_singleton itemId (above.map (fun x => x.id))).append_right _
    have : (itemId :: (above.map (fun x => x.id) ++
        below.map (fun x => x.id))).Nodup := List.nodup_cons.2 ⟨hnotin, i1⟩
    have := this.perm hperm.symm
    simpa using this
  · intro x hx
    rcases List.mem_append.1 hx with h | h
    · exact i2 x h
    · rw [List.mem_singleton.1 h]
      exact hv
  · intro x hx
    rcases List.mem_append.1 hx with h | h
    · exact List.mem_cons_of_mem _ (i4 x h)
    · rw [List.mem_singleton.1 h]
      exact List.mem_cons_self _ _
  · intro x hx
    exact List.mem_cons_of_mem _ (i5 x hx)
  · intro i hi
    rcases List.mem_cons.1 hi with hi | hi
    · exact Or.inl ⟨⟨itemId, d.name, d.acronym, resolvedValue d⟩, by simp, hi.symm⟩
    · rcases i6 i hi with ⟨x, hx, hxi⟩ | h | h
      · exact Or.inl ⟨x, List.mem_append_left _ hx, hxi⟩
      · exact Or.inr (Or.inl h)
      · exact Or.inr (Or.inr h)

theorem scanInv_add_below {threshold : Int} {E : Lookup} {above below : List ScanItem}
    {seen : List Nat} (inv : ScanInv threshold E above below seen)
    (itemId : Nat) (d : ItemData) (hnew : itemId ∉ seen)
    (hv1 : ¬ resolvedValue d ≥ threshold) (hv2 : resolvedValue d > 0) :
    ScanInv threshold E above (below ++ [⟨itemId, d.name, d.acronym, resolvedValue d⟩])
      (itemId :: seen) := by
  obtain ⟨i1, i2, i3, i4, i5, i6⟩ := inv
  refine ⟨?_, i2, ?_, ?_, ?_, ?_⟩
  · have hnotin : itemId ∉ (above.map (fun x => x.id) ++ below.map (fun x => x.id)) := by
      intro hmem
      rcases List.mem_append.1 hmem with h | h
      · rcases List.mem_map.1 h with ⟨x, hx, hxid⟩
        exact hnew (hxid ▸ i4 x hx)
      · rcases List.mem_map.1 h with ⟨x, hx, hxid⟩
        exact hnew (hxid ▸ i5 x hx)
    have hperm : (above.map (fun x => x.id) ++
        (below.map (fun x => x.id) ++ [itemId])).Perm
        (itemId :: (above.map (fun x => x.id) ++ below.map (fun x => x.id))) :=
      ((List.perm_append_singleton itemId _).append_left _).trans List.perm_middle
    have : (itemId :: (above.map (fun x => x.id) ++
        below.map (fun x => x.id))).Nodup := List.nodup_cons.2 ⟨hnotin, i1⟩
    have := this.perm hperm.symm
    simpa using this
  · intro x hx
    rcases List.mem_append.1 hx with h | h
    · exact i3 x h
    · rw [List.mem_singleton.1 h]
      exact ⟨hv2, lt_of_not_ge hv1⟩
  · intro x hx
    exact List.mem_cons_of_mem _ (i4 x hx)
  · intro x hx
    rcases List.mem_append.1 hx with h | h
    · exact List.mem_cons_of_mem _ (i5 x h)
    · rw [List.mem_singleton.1 h]
      exact List.mem_cons_self _ _
  · intro i hi
    rcases List.mem_cons.1 hi with hi | hi
    · exact Or.inr (Or.inl ⟨⟨itemId, d.name, d.acronym, resolvedValue d⟩, by simp, hi.symm⟩)
    · rcases i6 i hi with h | ⟨x, hx, hxi⟩ | h
      · exact Or.inl h
      · exact Or.inr (Or.inl ⟨x, List.mem_append_left _ hx, hxi⟩)
      · exact Or.inr (Or.inr h)

theorem scanInv_add_zero {threshold : Int} {E : Lookup} {above below : List ScanItem}
    {seen : List Nat} (inv : ScanInv threshold E above below seen)
    (k : List Char) (itemId : Nat) (d : ItemData)
    (hk : (k, (itemId, d)) ∈ E) (hv : resolvedValue d ≤ 0) :
    ScanInv threshold E above below (itemId :: seen) := by
  obtain ⟨i1, i2, i3, i4, i5, i6⟩ := inv
  refine ⟨i1, i2, i3, fun x hx => List.mem_cons_of_mem _ (i4 x hx),
    fun x hx => List.mem_cons_of_mem _ (i5 x hx), ?_⟩
  intro i hi
  rcases List.mem_cons.1 hi with hi | hi
  · exact Or.inr (Or.inr ⟨k, d, hi ▸ hk, hv⟩)
  · exact i6 i hi

theorem nameScanLoop_inv (textNorm : List Char) (threshold : Int) :
    ∀ (tbl : Lookup) (above below : List ScanItem) (seen : List Nat) (E : Lookup),
      ScanInv threshold E above below seen →
      ScanInv threshold (E ++ tbl)
        (nameScanLoop textNorm threshold tbl above below seen).1
        (nameScanLoop textNorm threshold tbl above below seen).2.1
        (nameScanLoop textNorm threshold tbl above below seen).2.2
  | [], a, b, s, E, inv => by
    simpa [nameScanLoop] using scanInv_mono_E (fun p hp => by simp [hp]) inv
  | (k, (itemId, d)) :: rest, a, b, s, E, inv => by
    have hEeq : E ++ (k, (itemId, d)) :: rest = (E ++ [(k, (itemId, d))]) ++ rest := by
      simp
    have hmono : ∀ p ∈ E, p ∈ E ++ [(k, (itemId, d))] := fun p hp =>
      List.mem_append_left _ hp
    have hself : (k, (itemId, d)) ∈ E ++ [(k, (itemId, d))] :=
      List.mem_append_right _ (by simp)
    rw [hEeq]
    unfold nameScanLoop
    by_cases h1 : itemId ∈ s
    · rw [if_pos h1]
      exact nameScanLoop_inv textNorm threshold rest a b s _ (scanInv_mono_E hmono inv)
    · rw [if_neg h1]
      by_cases h2 : (splitWs k).length < 2
      · rw [if_pos h2]
        exact nameScanLoop_inv textNorm threshold rest a b s _ (scanInv_mono_E hmono inv)
      · rw [if_neg h2]
        by_cases h3 : containsSub k textNorm
        · rw [if_pos h3]
          simp only []
          by_cases h4 : resolvedValue d ≥ threshold
          · rw [if_pos h4]
            exact nameScanLoop_inv textNorm threshold rest _ _ _ _
              (scanInv_add_above (scanInv_mono_E hmono inv) itemId d h1 h4)
          · rw [if_neg h4]
            by_cases h5 : resolvedValue d > 0
            · rw [if_pos h5]
              exact nameScanLoop_inv textNorm threshold rest _ _ _ _
                (scanInv_add_below (scanInv_mono_E hmono inv) itemId d h1 h4 h5)
            · rw [if_neg h5]
              exact nameScanLoop_inv textNorm threshold rest _ _ _ _
                (scanInv_add_zero (scanInv_mono_E hmono inv) k itemId d hself
                  (le_of_not_lt h5))
        · rw [if_neg h3]
          exact nameScanLoop_inv textNorm threshold rest a b s _ (scanInv_mono_E hmono inv)

theorem acrScanLoop_inv (text textLower : List Char) (threshold : Int) :
    ∀ (tbl : Lookup) (above below : List ScanItem) (seen : List Nat) (E : Lookup),
      ScanInv threshold E above below seen →
      ScanInv threshold (E ++ tbl)
        (acrScanLoop text textLower threshold tbl above below seen).1
        (acrScanLoop text textLower threshold tbl above below seen).2.1
        (acrScanLoop text textLower threshold tbl above below seen).2.2
  | [], a, b, s, E, inv => by
    simpa [acrScanLoop] using scanInv_mono_E (fun p hp => by simp [hp]) inv
  | (acr, (itemId, d)) :: rest, a, b, s, E, inv => by
    have hEeq : E ++ (acr, (itemId, d)) :: rest = (E ++ [(acr, (itemId, d))]) ++ rest := by
      simp
    have hmono : ∀ p ∈ E, p ∈ E ++ [(acr, (itemId, d))] := fun p hp =>
      List.mem_append_left _ hp
    have hself : (acr, (itemId, d)) ∈ E ++ [(acr, (itemId, d))] :=
      List.mem_append_right _ (by simp)
    rw [hEeq]
    unfold acrScanLoop
    by_cases h1 : itemId ∈ s
    · rw [if_pos h1]
      exact acrScanLoop_inv text textLower threshold rest a b s _ (scanInv_mono_E hmono inv)
    · rw [if_neg h1]
      by_cases h2 : acr.length < 2
      · rw [if_pos h2]
        exact acrScanLoop_inv text textLower threshold rest a b s _
          (scanInv_mono_E hmono inv)
      · rw [if_neg h2]
        by_cases h3 : acr ∈ ACRONYM_BLACKLIST
        · rw [if_pos h3]
          exact acrScanLoop_inv text textLower threshold rest a b s _
            (scanInv_mono_E hmono inv)
        · rw [if_neg h3]
          by_cases h4 : acr.length ≤ 3 ∧ acr.map upperChar ∉ splitWs text
          · rw [if_pos h4]
            exact acrScanLoop_inv text textLower threshold rest a b s _
              (scanInv_mono_E hmono inv)
          · rw [if_neg h4]
            by_cases h5 : acr ∈ splitWs textLower
            · rw [if_pos h5]
              simp only []
              by_cases h6 : resolvedValue d ≥ threshold
              · rw [if_pos h6]
                exact acrScanLoop_inv text textLower threshold rest _ _ _ _
                  (scanInv_add_above (scanInv_mono_E hmono inv) itemId d h1 h6)
              · rw [if_neg h6]
                by_cases h7 : resolvedValue d > 0
                · rw [if_pos h7]
                  exact acrScanLoop_inv text textLower threshold rest _ _ _ _
                    (scanInv_add_below (scanInv_mono_E hmono inv) itemId d h1 h6 h7)
                · rw [if_neg h7]
                  exact acrScanLoop_inv text textLower threshold rest _ _ _ _
                    (scanInv_add_zero (scanInv_mono_E hmono inv) acr itemId d hself
                      (le_of_not_lt h7))
            · rw [if_neg h5]
              exact acrScanLoop_inv text textLower threshold rest a b s _
                (scanInv_mono_E hmono inv)

theorem nameScanLoop_above_extends (textNorm : List Char) (threshold : Int) :
    ∀ (tbl : Lookup) (a b : List ScanItem) (s : List Nat),
      ∃ t, (nameScanLoop textNorm threshold tbl a b s).1 = a ++ t
  | [], a, b, s => ⟨[], by simp [nameScanLoop]⟩
  | (k, (itemId, d)) :: rest, a, b, s => by
    unfold nameScanLoop
    by_cases h1 : itemId ∈ s
    · rw [if_pos h1]
      exact nameScanLoop_above_extends textNorm threshold rest a b s
    · rw [if_neg h1]
      by_cases h2 : (splitWs k).length < 2
      · rw [if_pos h2]
        exact nameScanLoop_above_extends textNorm threshold rest a b s
      · rw [if_neg h2]
        by_cases h3 : containsSub k textNorm
        · rw [if_pos h3]
          simp only []
          by_cases h4 : resolvedValue d ≥ threshold
          · rw [if_pos h4]
            obtain ⟨t, ht⟩ := nameScanLoop_above_extends textNorm threshold rest
              (a ++ [⟨itemId, d.name, d.acronym, resolvedValue d⟩]) b (itemId :: s)
            exact ⟨⟨itemId, d.name, d.acronym, resolvedValue d⟩ :: t, by
              rw [ht, List.append_assoc]; rfl⟩
          · rw [if_neg h4]
            by_cases h5 : resolvedValue d > 0
            · rw [if_pos h5]
              exact nameScanLoop_above_extends textNorm threshold rest a _ _
            · rw [if_neg h5]
              exact nameScanLoop_above_extends textNorm threshold rest a b _
        · rw [if_neg h3]
          exact nameScanLoop_above_extends textNorm threshold rest a b s

theorem acrScanLoop_above_extends (text textLower : List Char) (threshold : Int) :
    ∀ (tbl : Lookup) (a b : List ScanItem) (s : List Nat),
      ∃ t, (acrScanLoop text textLower threshold tbl a b s).1 = a ++ t
  | [], a, b, s => ⟨[], by simp [acrScanLoop]⟩
  | (acr, (itemId, d)) :: rest, a, b, s => by
    unfold acrScanLoop
    by_cases h1 : itemId ∈ s
    · rw [if_pos h1]
      exact acrScanLoop_above_extends text textLower threshold rest a b s
    · rw [if_neg h1]
      by_cases h2 : acr.length < 2
      · rw [if_pos h2]
        exact acrScanLoop_above_extends text textLower threshold rest a b s
      · rw [if_neg h2]
        by_cases h3 : acr ∈ ACRONYM_BLACKLIST
        · rw [if_pos h3]
          exact acrScanLoop_above_extends text textLower threshold rest a b s
        · rw [if_neg h3]
          by_cases h4 : acr.length ≤ 3 ∧ acr.map upperChar ∉ splitWs text
          · rw [if_pos h4]
            exact acrScanLoop_above_extends text textLower threshold rest a b s
          · rw [if_neg h4]
            by_cases h5 : acr ∈ splitWs textLower
            · rw [if_pos h5]
              simp only []
              by_cases h6 : resolvedValue d ≥ threshold
              · rw [if_pos h6]
                obtain ⟨t, ht⟩ := acrScanLoop_above_extends text textLower threshold rest
                  (a ++ [⟨itemId, d.name, d.acronym, resolvedValue d⟩]) b (itemId :: s)
                exact ⟨⟨itemId, d.name, d.acronym, resolvedValue d⟩ :: t, by
                  rw [ht, List.append_assoc]; rfl⟩
              · rw [if_neg h6]
                by_cases h7 : resolvedValue d > 0
                · rw [if_pos h7]
                  exact acrScanLoop_above_extends text textLower threshold rest a _ _
                · rw [if_neg h7]
                  exact acrScanLoop_above_extends text textLower threshold rest a b _
            · rw [if_neg h5]
              exact acrScanLoop_above_extends text textLower threshold rest a b s

theorem acrScanLoop_seen_extends (text textLower : List Char) (threshold : Int) :
    ∀ (tbl : Lookup) (a b : List ScanItem) (s : List Nat) (i : Nat),
      i ∈ s → i ∈ (acrScanLoop text textLower threshold tbl a b s).2.2
  | [], a, b, s, i, hi => by simpa [acrScanLoop] using hi
  | (acr, (itemId, d)) :: rest, a, b, s, i, hi => by
    unfold acrScanLoop
    by_cases h1 : itemId ∈ s
    · rw [if_pos h1]
      exact acrScanLoop_seen_extends text textLower threshold rest a b s i hi
    · rw [if_neg h1]
      by_cases h2 : acr.length < 2
      · rw [if_pos h2]
        exact acrScanLoop_seen_extends text textLower threshold rest a b s i hi
      · rw [if_neg h2]
        by_cases h3 : acr ∈ ACRONYM_BLACKLIST
        · rw [if_pos h3]
          exact acrScanLoop_seen_extends text textLower threshold rest a b s i hi
        · rw [if_neg h3]
          by_cases h4 : acr.length ≤ 3 ∧ acr.map upperChar ∉ splitWs text
          · rw [if_pos h4]
            exact acrScanLoop_seen_extends text textLower threshold rest a b s i hi
          · rw [if_neg h4]
            by_cases h5 : acr ∈ splitWs textLower
            · rw [if_pos h5]
              simp only []
              by_cases h6 : resolvedValue d ≥ threshold
              · rw [if_pos h6]
                exact acrScanLoop_seen_extends text textLower threshold rest _ b _ i
                  (List.mem_cons_of_mem _ hi)
              · rw [if_neg h6]
                by_cases h7 : resolvedValue d > 0
                · rw [if_pos h7]
                  exact acrScanLoop_seen_extends text textLower threshold rest a _ _ i
                    (List.mem_cons_of_mem _ hi)
                · rw [if_neg h7]
                  exact acrScanLoop_seen_extends text textLower threshold rest a b _ i
                    (List.mem_cons_of_mem _ hi)
            · rw [if_neg h5]
              exact acrScanLoop_seen_extends text textLower threshold rest a b s i hi

theorem nameScanLoop_complete (textNorm : List Char) (threshold : Int) :
    ∀ (tbl : Lookup) (a b : List ScanItem) (s : List Nat) (k : List Char) (id0 : Nat)
      (d : ItemData),
      (k, (id0, d)) ∈ tbl →
      (tbl.map (fun p => p.2.1)).Nodup →
      id0 ∉ s →
      ¬ (splitWs k).length < 2 →
      containsSub k textNorm = true →
      resolvedValue d ≥ threshold →
      (⟨id0, d.name, d.acronym, resolvedValue d⟩ : ScanItem) ∈
        (nameScanLoop textNorm threshold tbl a b s).1
  | [], _, _, _, _, _, _, hmem, _, _, _, _, _ => by simp at hmem
  | (k', (id', d')) :: rest, a, b, s, k, id0, d, hmem, hnodup, hs, hw, hc, hv => by
    rcases List.mem_cons.1 hmem with heq | hmem'
    · injection heq with hk hrest
      injection hrest with hid hd
      subst hk
      subst hid
      subst hd
      unfold nameScanLoop
      rw [if_neg hs, if_neg hw, if_pos hc]
      simp only []
      rw [if_pos hv]
      obtain ⟨t, ht⟩ := nameScanLoop_above_extends textNorm threshold rest
        (a ++ [⟨id0, d.name, d.acronym, resolvedValue d⟩]) b (id0 :: s)
      rw [ht]
      exact List.mem_append_left _ (List.mem_append_right _ (by simp))
    · have hid' : id' ≠ id0 := by
        intro h
        subst h
        rw [List.map_cons, List.nodup_cons] at hnodup
        refine hnodup.1 ?_
        have hmm : ((k, (id', d)) : List Char × Entry).2.1 ∈
            rest.map (fun p : List Char × Entry => p.2.1) :=
          List.mem_map_of_mem _ hmem'
        exact hmm
      have hnodup' : (rest.map (fun p => p.2.1)).Nodup := by
        rw [List.map_cons, List.nodup_cons] at hnodup
        exact hnodup.2
      unfold nameScanLoop
      by_cases h1 : id' ∈ s
      · rw [if_pos h1]
        exact nameScanLoop_complete textNorm threshold rest a b s k id0 d hmem'
          hnodup' hs hw hc hv
      · rw [if_neg h1]
        by_cases h2 : (splitWs k').length < 2
        · rw [if_pos h2]
          exact nameScanLoop_complete textNorm threshold rest a b s k id0 d hmem'
            hnodup' hs hw hc hv
        · rw [if_neg h2]
          by_cases h3 : containsSub k' textNorm
          · rw [if_pos h3]
            simp only []
            have hs' : id0 ∉ id' :: s := by
              intro h
              rcases List.mem_cons.1 h with h | h
              · exact hid' h.symm
              · exact hs h
            by_cases h4 : resolvedValue d' ≥ threshold
            · rw [if_pos h4]
              exact nameScanLoop_complete textNorm threshold rest _ _ _ k id0 d hmem'
                hnodup' hs' hw hc hv
            · rw [if_neg h4]
              by_cases h5 : resolvedValue d' > 0
              · rw [if_pos h5]
                exact nameScanLoop_complete textNorm threshold rest _ _ _ k id0 d hmem'
                  hnodup' hs' hw hc hv
              · rw [if_neg h5]
                exact nameScanLoop_complete textNorm threshold rest _ _ _ k id0 d hmem'
                  hnodup' hs' hw hc hv
          · rw [if_neg h3]
            exact nameScanLoop_complete textNorm threshold rest a b s k id0 d hmem'
              hnodup' hs hw hc hv

theorem acrScanLoop_sound (text textLower : List Char) (threshold : Int) :
    ∀ (tbl : Lookup) (a b : List ScanItem) (s : List Nat) (i : Nat),
      i ∈ (acrScanLoop text textLower threshold tbl a b s).2.2 →
      i ∈ s ∨ ∃ acr d, (acr, (i, d)) ∈ tbl ∧ 2 ≤ acr.length ∧
        acr ∉ ACRONYM_BLACKLIST ∧
        (acr.length ≤ 3 → acr.map upperChar ∈ splitWs text) ∧
        acr ∈ splitWs textLower
  | [], a, b, s, i, hi => by
    simp only [acrScanLoop] at hi
    exact Or.inl hi
  | (acr, (itemId, d)) :: rest, a, b, s, i, hi => by
    have lift : (i ∈ s ∨ ∃ acr2 d2, (acr2, (i, d2)) ∈ rest ∧ 2 ≤ acr2.length ∧
        acr2 ∉ ACRONYM_BLACKLIST ∧
        (acr2.length ≤ 3 → acr2.map upperChar ∈ splitWs text) ∧
        acr2 ∈ splitWs textLower) →
        i ∈ s ∨ ∃ acr2 d2, (acr2, (i, d2)) ∈ (acr, (itemId, d)) :: rest ∧
          2 ≤ acr2.length ∧ acr2 ∉ ACRONYM_BLACKLIST ∧
          (acr2.length ≤ 3 → acr2.map upperChar ∈ splitWs text) ∧
          acr2 ∈ splitWs textLower := by
      rintro (h | ⟨acr2, d2, hmem, h2⟩)
      · exact Or.inl h
      · exact Or.inr ⟨acr2, d2, List.mem_cons_of_mem _ hmem, h2⟩
    unfold acrScanLoop at hi
    by_cases h1 : itemId ∈ s
    · rw [if_pos h1] at hi
      exact lift (acrScanLoop_sound text textLower threshold rest a b s i hi)
    · rw [if_neg h1] at hi
      by_cases h2 : acr.length < 2
      · rw [if_pos h2] at hi
        exact lift (acrScanLoop_sound text textLower threshold rest a b s i hi)
      · rw [if_neg h2] at hi
        by_cases h3 : acr ∈ ACRONYM_BLACKLIST
        · rw [if_pos h3] at hi
          exact lift (acrScanLoop_sound text textLower threshold rest a b s i hi)
        · rw [if_neg h3] at hi
          by_cases h4 : acr.length ≤ 3 ∧ acr.map upperChar ∉ splitWs text
          · rw [if_pos h4] at hi
            exact lift (acrScanLoop_sound text textLower threshold rest a b s i hi)
          · rw [if_neg h4] at hi
            by_cases h5 : acr ∈ splitWs textLower
            · rw [if_pos h5] at hi
              simp only [] at hi
              have hhead : i = itemId →
                  i ∈ s ∨ ∃ acr2 d2, (acr2, (i, d2)) ∈ (acr, (itemId, d)) :: rest ∧
                    2 ≤ acr2.length ∧ acr2 ∉ ACRONYM_BLACKLIST ∧
                    (acr2.length ≤ 3 → acr2.map upperChar ∈ splitWs text) ∧
                    acr2 ∈ splitWs textLower := by
                intro h
                subst h
                refine Or.inr ⟨acr, d, by simp, le_of_not_lt h2, h3, ?_, h5⟩
                intro hlen
                by_contra hup
                exact h4 ⟨hlen, hup⟩
              by_cases h6 : resolvedValue d ≥ threshold
              · rw [if_pos h6] at hi
                rcases acrScanLoop_sound text textLower threshold rest _ b _ i hi with
                  h | h
                · rcases List.mem_cons.1 h with h | h
                  · exact hhead h
                  · exact Or.inl h
                · exact lift (Or.inr h)
              · rw [if_neg h6] at hi
                by_cases h7 : resolvedValue d > 0
                · rw [if_pos h7] at hi
                  rcases acrScanLoop_sound text textLower threshold rest a _ _ i hi with
                    h | h
                  · rcases List.mem_cons.1 h with h | h
                    · exact hhead h
                    · exact Or.inl h
                  · exact lift (Or.inr h)
                · rw [if_neg h7] at hi
                  rcases acrScanLoop_sound text textLower threshold rest a b _ i hi with
                    h | h
                  · rcases List.mem_cons.1 h with h | h
                    · exact hhead h
                    · exact Or.inl h
                  · exact lift (Or.inr h)
            · rw [if_neg h5] at hi
              exact lift (acrScanLoop_sound text textLower threshold rest a b s i hi)

theorem acrScanLoop_complete (text textLower : List Char) (threshold : Int) :
    ∀ (tbl : Lookup) (a b : List ScanItem) (s : List Nat) (acr : List Char)
      (id0 : Nat) (d : ItemData),
      (acr, (id0, d)) ∈ tbl →
      2 ≤ acr.length →
      acr ∉ ACRONYM_BLACKLIST →
      (acr.length ≤ 3 → acr.map upperChar ∈ splitWs text) →
      acr ∈ splitWs textLower →
      id0 ∈ (acrScanLoop text textLower threshold tbl a b s).2.2
  | [], _, _, _, _, _, _, hmem, _, _, _, _ => by simp at hmem
  | (acr', (itemId', d')) :: rest, a, b, s, acr, id0, d, hmem, hlen, hbl, hup, htok => by
    by_cases hin : id0 ∈ s
    · exact acrScanLoop_seen_extends text textLower threshold _ a b s id0 hin
    · rcases List.mem_cons.1 hmem with heq | hmem'
      · injection heq with hk hrest
        injection hrest with hid hd
        subst hk
        subst hid
        subst hd
        unfold acrScanLoop
        rw [if_neg hin, if_neg (not_lt.2 hlen), if_neg hbl, if_neg ?_, if_pos htok]
        · simp only []
          by_cases h6 : resolvedValue d ≥ threshold
          · rw [if_pos h6]
            exact acrScanLoop_seen_extends text textLower threshold rest _ b _ id0
              (List.mem_cons_self _ _)
          · rw [if_neg h6]
            by_cases h7 : resolvedValue d > 0
            · rw [if_pos h7]
              exact acrScanLoop_seen_extends text textLower threshold rest a _ _ id0
                (List.mem_cons_self _ _)
            · rw [if_neg h7]
              exact acrScanLoop_seen_extends text textLower threshold rest a b _ id0
                (List.mem_cons_self _ _)
        · rintro ⟨hl3, hnup⟩
          exact hnup (hup hl3)
      · unfold acrScanLoop
        by_cases h1 : itemId' ∈ s
        · rw [if_pos h1]
          exact acrScanLoop_complete text textLower threshold rest a b s acr id0 d
            hmem' hlen hbl hup htok
        · rw [if_neg h1]
          by_cases h2 : acr'.length < 2
          · rw [if_pos h2]
            exact acrScanLoop_complete text textLower threshold rest a b s acr id0 d
              hmem' hlen hbl hup htok
          · rw [if_neg h2]
            by_cases h3 : acr' ∈ ACRONYM_BLACKLIST
            · rw [if_pos h3]
              exact acrScanLoop_complete text textLower threshold rest a b s acr id0 d
                hmem' hlen hbl hup htok
            · rw [if_neg h3]
              by_cases h4 : acr'.length ≤ 3 ∧ acr'.map upperChar ∉ splitWs text
              · rw [if_pos h4]
                exact acrScanLoop_complete text textLower threshold rest a b s acr id0 d
                  hmem' hlen hbl hup htok
              · rw [if_neg h4]
                by_cases h5 : acr' ∈ splitWs textLower
                · rw [if_pos h5]
                  simp only []
                  by_cases h6 : resolvedValue d' ≥ threshold
                  · rw [if_pos h6]
                    by_cases hid : id0 ∈ itemId' :: s
                    · exact acrScanLoop_seen_extends text textLower threshold rest _ b _
                        id0 hid
                    · exact acrScanLoop_complete text textLower threshold rest _ b _
                        acr id0 d hmem' hlen hbl hup htok
                  · rw [if_neg h6]
                    by_cases h7 : resolvedValue d' > 0
                    · rw [if_pos h7]
                      by_cases hid : id0 ∈ itemId' :: s
                      · exact acrScanLoop_seen_extends text textLower threshold rest a _ _
                          id0 hid
                      · exact acrScanLoop_complete text textLower threshold rest a _ _
                          acr id0 d hmem' hlen hbl hup htok
                    · rw [if_neg h7]
                      by_cases hid : id0 ∈ itemId' :: s
                      · exact acrScanLoop_seen_extends text textLower threshold rest a b _
                          id0 hid
                      · exact acrScanLoop_complete text textLower threshold rest a b _
                          acr id0 d hmem' hlen hbl hup htok
                · rw [if_neg h5]
                  exact acrScanLoop_complete text textLower threshold rest a b s acr id0 d
                    hmem' hlen hbl hup htok

theorem nameScanLoop_below_extends (textNorm : List Char) (threshold : Int) :
    ∀ (tbl : Lookup) (a b : List ScanItem) (s : List Nat),
      ∃ t, (nameScanLoop textNorm threshold tbl a b s).2.1 = b ++ t
  | [], a, b, s => ⟨[], by simp [nameScanLoop]⟩
  | (k, (itemId, d)) :: rest, a, b, s => by
    unfold nameScanLoop
    by_cases h1 : itemId ∈ s
    · rw [if_pos h1]
      exact nameScanLoop_below_extends textNorm threshold rest a b s
    · rw [if_neg h1]
      by_cases h2 : (splitWs k).length < 2
      · rw [if_pos h2]
        exact nameScanLoop_below_extends textNorm threshold rest a b s
      · rw [if_neg h2]
        by_cases h3 : containsSub k textNorm
        · rw [if_pos h3]
          simp only []
          by_cases h4 : resolvedValue d ≥ threshold
          · rw [if_pos h4]
            exact nameScanLoop_below_extends textNorm threshold rest _ b _
          · rw [if_neg h4]
            by_cases h5 : resolvedValue d > 0
            · rw [if_pos h5]
              obtain ⟨t, ht⟩ := nameScanLoop_below_extends textNorm threshold rest
                a (b ++ [⟨itemId, d.name, d.acronym, resolvedValue d⟩]) (itemId :: s)
              exact ⟨⟨itemId, d.name, d.acronym, resolvedValue d⟩ :: t, by
                rw [ht, List.append_assoc]; rfl⟩
            · rw [if_neg h5]
              exact nameScanLoop_below_extends textNorm threshold rest a b _
        · rw [if_neg h3]
          exact nameScanLoop_below_extends textNorm threshold rest a b s

theorem acrScanLoop_below_extends (text textLower : List Char) (threshold : Int) :
    ∀ (tbl : Lookup) (a b : List ScanItem) (s : List Nat),
      ∃ t, (acrScanLoop text textLower threshold tbl a b s).2.1 = b ++ t
  | [], a, b, s => ⟨[], by simp [acrScanLoop]⟩
  | (acr, (itemId, d)) :: rest, a, b, s => by
    unfold acrScanLoop
    by_cases h1 : itemId ∈ s
    · rw [if_pos h1]
      exact acrScanLoop_below_extends text textLower threshold rest a b s
    · rw [if_neg h1]
      by_cases h2 : acr.length < 2
      · rw [if_pos h2]
        exact acrScanLoop_below_extends text textLower threshold rest a b s
      · rw [if_neg h2]
        by_cases h3 : acr ∈ ACRONYM_BLACKLIST
        · rw [if_pos h3]
          exact acrScanLoop_below_extends text textLower threshold rest a b s
        · rw [if_neg h3]
          by_cases h4 : acr.length ≤ 3 ∧ acr.map upperChar ∉ splitWs text
          · rw [if_pos h4]
            exact acrScanLoop_below_extends text textLower threshold rest a b s
          · rw [if_neg h4]
            by_cases h5 : acr ∈ splitWs textLower
            · rw [if_pos h5]
              simp only []
              by_cases h6 : resolvedValue d ≥ threshold
              · rw [if_pos h6]
                exact acrScanLoop_below_extends text textLower threshold rest _ b _
              · rw [if_neg h6]
                by_cases h7 : resolvedValue d > 0
                · rw [if_pos h7]
                  obtain ⟨t, ht⟩ := acrScanLoop_below_extends text textLower threshold
                    rest a (b ++ [⟨itemId, d.name, d.acronym, resolvedValue d⟩])
                    (itemId :: s)
                  exact ⟨⟨itemId, d.name, d.acronym, resolvedValue d⟩ :: t, by
                    rw [ht, List.append_assoc]; rfl⟩
                · rw [if_neg h7]
                  exact acrScanLoop_below_extends text textLower threshold rest a b _
            · rw [if_neg h5]
              exact acrScanLoop_below_extends text textLower threshold rest a b s

theorem nameScanLoop_complete_below (textNorm : List Char) (threshold : Int) :
    ∀ (tbl : Lookup) (a b : List ScanItem) (s : List Nat) (k : List Char) (id0 : Nat)
      (d : ItemData),
      (k, (id0, d)) ∈ tbl →
      (tbl.map (fun p => p.2.1)).Nodup →
      id0 ∉ s →
      ¬ (splitWs k).length < 2 →
      containsSub k textNorm = true →
      ¬ resolvedValue d ≥ threshold →
      resolvedValue d > 0 →
      (⟨id0, d.name, d.acronym, resolvedValue d⟩ : ScanItem) ∈
        (nameScanLoop textNorm threshold tbl a b s).2.1
  | [], _, _, _, _, _, _, hmem, _, _, _, _, _, _ => by simp at hmem
  | (k', (id', d')) :: rest, a, b, s, k, id0, d, hmem, hnodup, hs, hw, hc, hv1, hv2 => by
    rcases List.mem_cons.1 hmem with heq | hmem'
    · injection heq with hk hrest
      injection hrest with hid hd
      subst hk
      subst hid
      subst hd
      unfold nameScanLoop
      rw [if_neg hs, if_neg hw, if_pos hc]
      simp only []
      rw [if_neg hv1, if_pos hv2]
      obtain ⟨t, ht⟩ := nameScanLoop_below_extends textNorm threshold rest
        a (b ++ [⟨id0, d.name, d.acronym, resolvedValue d⟩]) (id0 :: s)
      rw [ht]
      exact List.mem_append_left _ (List.mem_append_right _ (by simp))
    · have hid' : id' ≠ id0 := by
        intro h
        subst h
        rw [List.map_cons, List.nodup_cons] at hnodup
        refine hnodup.1 ?_
        have hmm : ((k, (id', d)) : List Char × Entry).2.1 ∈
            rest.map (fun p : List Char × Entry => p.2.1) :=
          List.mem_map_of_mem _ hmem'
        exact hmm
      have hnodup' : (rest.map (fun p => p.2.1)).Nodup := by
        rw [List.map_cons, List.nodup_cons] at hnodup
        exact hnodup.2
      unfold nameScanLoop
      by_cases h1 : id' ∈ s
      · rw [if_pos h1]
        exact nameScanLoop_complete_below textNorm threshold rest a b s k id0 d hmem'
          hnodup' hs hw hc hv1 hv2
      · rw [if_neg h1]
        by_cases h2 : (splitWs k').length < 2
        · rw [if_pos h2]
          exact nameScanLoop_complete_below textNorm threshold rest a b s k id0 d hmem'
            hnodup' hs hw hc hv1 hv2
        · rw [if_neg h2]
          by_cases h3 : containsSub k' textNorm
          · rw [if_pos h3]
            simp only []
            have hs' : id0 ∉ id' :: s := by
              intro h
              rcases List.mem_cons.1 h with h | h
              · exact hid' h.symm
              · exact hs h
            by_cases h4 : resolvedValue d' ≥ threshold
            · rw [if_pos h4]
              exact nameScanLoop_complete_below textNorm threshold rest _ _ _ k id0 d
                hmem' hnodup' hs' hw hc hv1 hv2
            · rw [if_neg h4]
              by_cases h5 : resolvedValue d' > 0
              · rw [if_pos h5]
                exact nameScanLoop_complete_below textNorm threshold rest _ _ _ k id0 d
                  hmem' hnodup' hs' hw hc hv1 hv2
              · rw [if_neg h5]
                exact nameScanLoop_complete_below textNorm threshold rest _ _ _ k id0 d
                  hmem' hnodup' hs' hw hc hv1 hv2
          · rw [if_neg h3]
            exact nameScanLoop_complete_below textNorm threshold rest a b s k id0 d
              hmem' hnodup' hs hw hc hv1 hv2

theorem acrScanLoop_complete_above (text textLower : List Char) (threshold : Int) :
    ∀ (tbl : Lookup) (a b : List ScanItem) (s : List Nat) (acr : List Char)
      (id0 : Nat) (d : ItemData),
      (acr, (id0, d)) ∈ tbl →
      (tbl.map (fun p => p.2.1)).Nodup →
      id0 ∉ s →
      2 ≤ acr.length →
      acr ∉ ACRONYM_BLACKLIST →
      (acr.length ≤ 3 → acr.map upperChar ∈ splitWs text) →
      acr ∈ splitWs textLower →
      resolvedValue d ≥ threshold →
      (⟨id0, d.name, d.acronym, resolvedValue d⟩ : ScanItem) ∈
        (acrScanLoop text textLower threshold tbl a b s).1
  | [], _, _, _, _, _, _, hmem, _, _, _, _, _, _, _ => by simp at hmem
  | (acr', (id', d')) :: rest, a, b, s, acr, id0, d, hmem, hnodup, hs, hlen, hbl,
      hup, htok, hv => by
    rcases List.mem_cons.1 hmem with heq | hmem'
    · injection heq with hk hrest
      injection hrest with hid hd
      subst hk
      subst hid
      subst hd
      unfold acrScanLoop
      rw [if_neg hs, if_neg (not_lt.2 hlen), if_neg hbl, if_neg ?_, if_pos htok]
      · simp only []
        rw [if_pos hv]
        obtain ⟨t, ht⟩ := acrScanLoop_above_extends text textLower threshold rest
          (a ++ [⟨id0, d.name, d.acronym, resolvedValue d⟩]) b (id0 :: s)
        rw [ht]
        exact List.mem_append_left _ (List.mem_append_right _ (by simp))
      · rintro ⟨hl3, hnup⟩
        exact hnup (hup hl3)
    · have hid' : id' ≠ id0 := by
        intro h
        subst h
        rw [List.map_cons, List.nodup_cons] at hnodup
        refine hnodup.1 ?_
        have hmm : ((acr, (id', d)) : List Char × Entry).2.1 ∈
            rest.map (fun p : List Char × Entry => p.2.1) :=
          List.mem_map_of_mem _ hmem'
        exact hmm
      have hnodup' : (rest.map (fun p => p.2.1)).Nodup := by
        rw [List.map_cons, List.nodup_cons] at hnodup
        exact hnodup.2
      have hs' : id0 ∉ id' :: s := by
        intro h
        rcases List.mem_cons.1 h with h | h
        · exact hid' h.symm
        · exact hs h
      unfold acrScanLoop
      by_cases h1 : id' ∈ s
      · rw [if_pos h1]
        exact acrScanLoop_complete_above text textLower threshold rest a b s acr id0 d
          hmem' hnodup' hs hlen hbl hup htok hv
      · rw [if_neg h1]
        by_cases h2 : acr'.length < 2
        · rw [if_pos h2]
          exact acrScanLoop_complete_above text textLower threshold rest a b s acr id0 d
            hmem' hnodup' hs hlen hbl hup htok hv
        · rw [if_neg h2]
          by_cases h3 : acr' ∈ ACRONYM_BLACKLIST
          · rw [if_pos h3]
            exact acrScanLoop_complete_above text textLower threshold rest a b s acr
              id0 d hmem' hnodup' hs hlen hbl hup htok hv
          · rw [if_neg h3]
            by_cases h4 : acr'.length ≤ 3 ∧ acr'.map upperChar ∉ splitWs text
            · rw [if_pos h4]
              exact acrScanLoop_complete_above text textLower threshold rest a b s acr
                id0 d hmem' hnodup' hs hlen hbl hup htok hv
            · rw [if_neg h4]
              by_cases h5 : acr' ∈ splitWs textLower
              · rw [if_pos h5]
                simp only []
                by_cases h6 : resolvedValue d' ≥ threshold
                · rw [if_pos h6]
                  exact acrScanLoop_complete_above text textLower threshold rest _ b _
                    acr id0 d hmem' hnodup' hs' hlen hbl hup htok hv
                · rw [if_neg h6]
                  by_cases h7 : resolvedValue d' > 0
                  · rw [if_pos h7]
                    exact acrScanLoop_complete_above text textLower threshold rest a _ _
                      acr id0 d hmem' hnodup' hs' hlen hbl hup htok hv
                  · rw [if_neg h7]
                    exact acrScanLoop_complete_above text textLower threshold rest a b _
                      acr id0 d hmem' hnodup' hs' hlen hbl hup htok hv
              · rw [if_neg h5]
                exact acrScanLoop_complete_above text textLower threshold rest a b s acr
                  id0 d hmem' hnodup' hs hlen hbl hup htok hv

theorem acrScanLoop_complete_below (text textLower : List Char) (threshold : Int) :
    ∀ (tbl : Lookup) (a b : List ScanItem) (s : List Nat) (acr : List Char)
      (id0 : Nat) (d : ItemData),
      (acr, (id0, d)) ∈ tbl →
      (tbl.map (fun p => p.2.1)).Nodup →
      id0 ∉ s →
      2 ≤ acr.length →
      acr ∉ ACRONYM_BLACKLIST →
      (acr.length ≤ 3 → acr.map upperChar ∈ splitWs text) →
      acr ∈ splitWs textLower →
      ¬ resolvedValue d ≥ threshold →
      resolvedValue d > 0 →
      (⟨id0, d.name, d.acronym, resolvedValue d⟩ : ScanItem) ∈
        (acrScanLoop text textLower threshold tbl a b s).2.1
  | [], _, _, _, _, _, _, hmem, _, _, _, _, _, _, _, _ => by simp at hmem
  | (acr', (id', d')) :: rest, a, b, s, acr, id0, d, hmem, hnodup, hs, hlen, hbl,
      hup, htok, hv1, hv2 => by
    rcases List.mem_cons.1 hmem with heq | hmem'
    · injection heq with hk hrest
      injection hrest with hid hd
      subst hk
      subst hid
      subst hd
      unfold acrScanLoop
      rw [if_neg hs, if_neg (not_lt.2 hlen), if_neg hbl, if_neg ?_, if_pos htok]
      · simp only []
        rw [if_neg hv1, if_pos hv2]
        obtain ⟨t, ht⟩ := acrScanLoop_below_extends text textLower threshold rest
          a (b ++ [⟨id0, d.name, d.acronym, resolvedValue d⟩]) (id0 :: s)
        rw [ht]
        exact List.mem_append_left _ (List.mem_append_right _ (by simp))
      · rintro ⟨hl3, hnup⟩
        exact hnup (hup hl3)
    · have hid' : id' ≠ id0 := by
        intro h
        subst h
        rw [List.map_cons, List.nodup_cons] at hnodup
        refine hnodup.1 ?_
        have hmm : ((acr, (id', d)) : List Char × Entry).2.1 ∈
            rest.map (fun p : List Char × Entry => p.2.1) :=
          List.mem_map_of_mem _ hmem'
        exact hmm
      have hnodup' : (rest.map (fun p => p.2.1)).Nodup := by
        rw [List.map_cons, List.nodup_cons] at hnodup
        exact hnodup.2
      have hs' : id0 ∉ id' :: s := by
        intro h
        rcases List.mem_cons.1 h with h | h
        · exact hid' h.symm
        · exact hs h
      unfold acrScanLoop
      by_cases h1 : id' ∈ s
      · rw [if_pos h1]
        exact acrScanLoop_complete_below text textLower threshold rest a b s acr id0 d
          hmem' hnodup' hs hlen hbl hup htok hv1 hv2
      · rw [if_neg h1]
        by_cases h2 : acr'.length < 2
        · rw [if_pos h2]
          exact acrScanLoop_complete_below text textLower threshold rest a b s acr id0 d
            hmem' hnodup' hs hlen hbl hup htok hv1 hv2
        · rw [if_neg h2]
          by_cases h3 : acr' ∈ ACRONYM_BLACKLIST
          · rw [if_pos h3]
            exact acrScanLoop_complete_below text textLower threshold rest a b s acr
              id0 d hmem' hnodup' hs hlen hbl hup htok hv1 hv2
          · rw [if_neg h3]
            by_cases h4 : acr'.length ≤ 3 ∧ acr'.map upperChar ∉ splitWs text
            · rw [if_pos h4]
              exact acrScanLoop_complete_below text textLower threshold rest a b s acr
                id0 d hmem' hnodup' hs hlen hbl hup htok hv1 hv2
            · rw [if_neg h4]
              by_cases h5 : acr' ∈ splitWs textLower
              · rw [if_pos h5]
                simp only []
                by_cases h6 : resolvedValue d' ≥ threshold
                · rw [if_pos h6]
                  exact acrScanLoop_complete_below text textLower threshold rest _ b _
                    acr id0 d hmem' hnodup' hs' hlen hbl hup htok hv1 hv2
                · rw [if_neg h6]
                  by_cases h7 : resolvedValue d' > 0
                  · rw [if_pos h7]
                    exact acrScanLoop_complete_below text textLower threshold rest a _ _
                      acr id0 d hmem' hnodup' hs' hlen hbl hup htok hv1 hv2
                  · rw [if_neg h7]
                    exact acrScanLoop_complete_below text textLower threshold rest a b _
                      acr id0 d hmem' hnodup' hs' hlen hbl hup htok hv1 hv2
              · rw [if_neg h5]
                exact acrScanLoop_complete_below text textLower threshold rest a b s acr
                  id0 d hmem' hnodup' hs hlen hbl hup htok hv1 hv2

/-! ## Claim C5 (corrected): scan buckets partition the matched ids -/

/-- C5 counterexample: the claim quantifies over every threshold, but
with threshold `0` a matched item whose resolved value is `0` satisfies
`resolvedValue >= threshold` and is placed in the `above` bucket, while
the claim demands that a zero-value item appear in neither bucket. -/
theorem C5_counterexample :
    ∃ x ∈ (find_mentioned_items "domino crown".toList zTable [] 0).1, x.value = 0 := by
  refine ⟨⟨1, "Domino Crown".toList, [], 0⟩, by decide, rfl⟩

theorem scanCore_inv (text : List Char) (nameLookup acronymLookup : Lookup)
    (threshold : Int) (above below : List ScanItem) (seen : List Nat)
    (hscan : scanCore text nameLookup acronymLookup threshold = (above, below, seen)) :
    ScanInv threshold (nameLookup ++ acronymLookup) above below seen := by
  have hinv0 : ScanInv threshold ([] : Lookup) [] [] [] :=
    ⟨by simp, by simp, by simp, by simp, by simp, by simp⟩
  rcases hn : nameScanLoop (normalize_name text) threshold nameLookup [] [] []
    with ⟨a1, b1, s1⟩
  have h1 := nameScanLoop_inv (normalize_name text) threshold nameLookup [] [] [] []
    hinv0
  rw [hn] at h1
  simp only [] at h1
  have h2 := acrScanLoop_inv text (text.map lowerChar) threshold acronymLookup
    a1 b1 s1 nameLookup h1
  have hsc : scanCore text nameLookup acronymLookup threshold =
      acrScanLoop text (text.map lowerChar) threshold acronymLookup a1 b1 s1 := by
    unfold scanCore
    simp only []
    rw [hn]
  rw [hsc] at hscan
  rw [hscan] at h2
  exact h2

/-- C5 amended: for every text, index and positive threshold, with
`(above, below, seen)` the scan-core state, the sorted buckets returned
by `find_mentioned_items` satisfy: every above element has value at or
above the threshold, every below element has value strictly between `0`
and the threshold, no bucketed item has value `0`, no id occurs twice
across or within buckets, every seen (matched) id is in a bucket or
stems from a table entry of non-positive resolved value, and both
buckets are sorted descending by value.  Moreover the bucketing is
directional exactly as the claim states it: a name-table entry meeting
the name-scan hit conditions whose resolved value is at or above the
threshold is placed, with that value, in `above`, and one with value in
`(0, threshold)` in `below`; likewise an acronym-table entry meeting
the acronym-scan hit conditions and not already matched by the name
scan is placed in the bucket dictated by its resolved value (the nodup
hypotheses on table ids hold of every table `build_lookup_tables`
produces).  The positivity restriction is forced: with threshold `0` a
zero-value match lands in `above`. -/
theorem C5_scan_partition (text : List Char) (nameLookup acronymLookup : Lookup)
    (threshold : Int) (hT : 0 < threshold) (above below : List ScanItem)
    (seen : List Nat)
    (hscan : scanCore text nameLookup acronymLookup threshold = (above, below, seen)) :
    (∀ x ∈ (find_mentioned_items text nameLookup acronymLookup threshold).1,
        x.value ≥ threshold)
    ∧ (∀ x ∈ (find_mentioned_items text nameLookup acronymLookup threshold).2,
        0 < x.value ∧ x.value < threshold)
    ∧ (∀ x, (x ∈ (find_mentioned_items text nameLookup acronymLookup threshold).1 ∨
          x ∈ (find_mentioned_items text nameLookup acronymLookup threshold).2) →
        x.value ≠ 0)
    ∧ (((find_mentioned_items text nameLookup acronymLookup threshold).1.map
          (fun x => x.id) ++
        (find_mentioned_items text nameLookup acronymLookup threshold).2.map
          (fun x => x.id)).Nodup)
    ∧ (∀ i ∈ seen,
        (∃ x ∈ (find_mentioned_items text nameLookup acronymLookup threshold).1,
            x.id = i)
        ∨ (∃ x ∈ (find_mentioned_items text nameLookup acronymLookup threshold).2,
            x.id = i)
        ∨ ∃ k d, ((k, (i, d)) ∈ nameLookup ∨ (k, (i, d)) ∈ acronymLookup) ∧
            resolvedValue d ≤ 0)
    ∧ List.Sorted (fun a b => b.value ≤ a.value)
        (find_mentioned_items text nameLookup acronymLookup threshold).1
    ∧ List.Sorted (fun a b => b.value ≤ a.value)
        (find_mentioned_items text nameLookup acronymLookup threshold).2
    ∧ (∀ (k : List Char) (i : Nat) (d : ItemData),
        (k, (i, d)) ∈ nameLookup →
        (nameLookup.map (fun p => p.2.1)).Nodup →
        ¬ (splitWs k).length < 2 →
        containsSub k (normalize_name text) = true →
        resolvedValue d ≥ threshold →
        (⟨i, d.name, d.acronym, resolvedValue d⟩ : ScanItem) ∈
          (find_mentioned_items text nameLookup acronymLookup threshold).1)
    ∧ (∀ (k : List Char) (i : Nat) (d : ItemData),
        (k, (i, d)) ∈ nameLookup →
        (nameLookup.map (fun p => p.2.1)).Nodup →
        ¬ (splitWs k).length < 2 →
        containsSub k (normalize_name text) = true →
        0 < resolvedValue d → resolvedValue d < threshold →
        (⟨i, d.name, d.acronym, resolvedValue d⟩ : ScanItem) ∈
          (find_mentioned_items text nameLookup acronymLookup threshold).2)
    ∧ (∀ (acr : List Char) (i : Nat) (d : ItemData),
        (acr, (i, d)) ∈ acronymLookup →
        (acronymLookup.map (fun p => p.2.1)).Nodup →
        i ∉ (nameScanLoop (normalize_name text) threshold nameLookup [] [] []).2.2 →
        2 ≤ acr.length →
        acr ∉ ACRONYM_BLACKLIST →
        (acr.length ≤ 3 → acr.map upperChar ∈ splitWs text) →
        acr ∈ splitWs (text.map lowerChar) →
        resolvedValue d ≥ threshold →
        (⟨i, d.name, d.acronym, resolvedValue d⟩ : ScanItem) ∈
          (find_mentioned_items text nameLookup acronymLookup threshold).1)
    ∧ (∀ (acr : List Char) (i : Nat) (d : ItemData),
        (acr, (i, d)) ∈ acronymLookup →
        (acronymLookup.map (fun p => p.2.1)).Nodup →
        i ∉ (nameScanLoop (normalize_name text) threshold nameLookup [] [] []).2.2 →
        2 ≤ acr.length →
        acr ∉ ACRONYM_BLACKLIST →
        (acr.length ≤ 3 → acr.map upperChar ∈ splitWs text) →
        acr ∈ splitWs (text.map lowerChar) →
        0 < resolvedValue d → resolvedValue d < threshold →
        (⟨i, d.name, d.acronym, resolvedValue d⟩ : ScanItem) ∈
          (find_mentioned_items text nameLookup acronymLookup threshold).2) := by
  obtain ⟨i1, i2, i3, i4, i5, i6⟩ :=
    scanCore_inv text nameLookup acronymLookup threshold above below seen hscan
  have hfind : find_mentioned_items text nameLookup acronymLookup threshold =
      (sortDescBy (fun x => x.value) above, sortDescBy (fun x => x.value) below) := by
    unfold find_mentioned_items
    simp only []
    rw [hscan]
  have hpa : (sortDescBy (fun x => x.value) above).Perm above := sortDescBy_perm _ _
  have hpb : (sortDescBy (fun x => x.value) below).Perm below := sortDescBy_perm _ _
  rcases hn : nameScanLoop (normalize_name text) threshold nameLookup [] [] []
    with ⟨a1, b1, s1⟩
  have hsc2 : scanCore text nameLookup acronymLookup threshold =
      acrScanLoop text (text.map lowerChar) threshold acronymLookup a1 b1 s1 := by
    unfold scanCore
    simp only []
    rw [hn]
  have hacr : acrScanLoop text (text.map lowerChar) threshold acronymLookup a1 b1 s1 =
      (above, below, seen) := hsc2.symm.trans hscan
  obtain ⟨ta, hta⟩ := acrScanLoop_above_extends text (text.map lowerChar) threshold
    acronymLookup a1 b1 s1
  obtain ⟨tb, htb⟩ := acrScanLoop_below_extends text (text.map lowerChar) threshold
    acronymLookup a1 b1 s1
  have habove : above = a1 ++ ta := by
    have h := congrArg (fun z : List ScanItem × List ScanItem × List Nat => z.1) hacr
    simp only [] at h
    rw [hta] at h
    exact h.symm
  have hbelow : below = b1 ++ tb := by
    have h := congrArg (fun z : List ScanItem × List ScanItem × List Nat => z.2.1) hacr
    simp only [] at h
    rw [htb] at h
    exact h.symm
  have hacr1 : (acrScanLoop text (text.map lowerChar) threshold acronymLookup
      a1 b1 s1).1 = above := by
    have h := congrArg (fun z : List ScanItem × List ScanItem × List Nat => z.1) hacr
    simpa using h
  have hacr2 : (acrScanLoop text (text.map lowerChar) threshold acronymLookup
      a1 b1 s1).2.1 = below := by
    have h := congrArg (fun z : List ScanItem × List ScanItem × List Nat => z.2.1) hacr
    simpa using h
  rw [hfind]
  refine ⟨?_, ?_, ?_, ?_, ?_, sortDescBy_sorted _ _, sortDescBy_sorted _ _,
    ?_, ?_, ?_, ?_⟩
  · intro x hx
    exact i2 x (hpa.mem_iff.1 hx)
  · intro x hx
    exact i3 x (hpb.mem_iff.1 hx)
  · intro x hx
    rcases hx with hx | hx
    · have := i2 x (hpa.mem_iff.1 hx)
      intro h0
      rw [h0] at this
      exact absurd (lt_of_lt_of_le hT this) (lt_irrefl 0)
    · have := (i3 x (hpb.mem_iff.1 hx)).1
      intro h0
      rw [h0] at this
      exact lt_irrefl 0 this
  · have hperm : ((sortDescBy (fun x => x.value) above).map (fun x => x.id) ++
        (sortDescBy (fun x => x.value) below).map (fun x => x.id)).Perm
        (above.map (fun x => x.id) ++ below.map (fun x => x.id)) :=
      (hpa.map (fun x => x.id)).append (hpb.map (fun x => x.id))
    exact i1.perm hperm.symm
  · intro i hi
    rcases i6 i hi with ⟨x, hx, hxi⟩ | ⟨x, hx, hxi⟩ | ⟨k, d, hkd, hv⟩
    · exact Or.inl ⟨x, hpa.mem_iff.2 hx, hxi⟩
    · exact Or.inr (Or.inl ⟨x, hpb.mem_iff.2 hx, hxi⟩)
    · exact Or.inr (Or.inr ⟨k, d, List.mem_append.1 hkd, hv⟩)
  · intro k i d hmem hnodup hw hc hv
    have hx := nameScanLoop_complete (normalize_name text) threshold nameLookup
      [] [] [] k i d hmem hnodup (by simp) hw hc hv
    rw [hn] at hx
    simp only [] at hx
    exact hpa.mem_iff.2 (habove ▸ List.mem_append_left ta hx)
  · intro k i d hmem hnodup hw hc hv1 hv2
    have hx := nameScanLoop_complete_below (normalize_name text) threshold nameLookup
      [] [] [] k i d hmem hnodup (by simp) hw hc (not_le.2 hv2) hv1
    rw [hn] at hx
    simp only [] at hx
    exact hpb.mem_iff.2 (hbelow ▸ List.mem_append_left tb hx)
  · intro acr i d hmem hnodup hns hlen hbl hup htok hv
    simp only [] at hns
    have hx := acrScanLoop_complete_above text (text.map lowerChar) threshold
      acronymLookup a1 b1 s1 acr i d hmem hnodup hns hlen hbl hup htok hv
    rw [hacr1] at hx
    exact hpa.mem_iff.2 hx
  · intro acr i d hmem hnodup hns hlen hbl hup htok hv1 hv2
    simp only [] at hns
    have hx := acrScanLoop_complete_below text (text.map lowerChar) threshold
      acronymLookup a1 b1 s1 acr i d hmem hnodup hns hlen hbl hup htok
      (not_le.2 hv2) hv1
    rw [hacr2] at hx
    exact hpb.mem_iff.2 hx

/-- C5 witness: a text hitting one two-word name and one short
uppercase acronym produces two above-bucket items with distinct ids and
values above the threshold, and both hits are placed in the above
bucket by the directional conjuncts. -/
theorem C5_witness :
    (∀ x ∈ (find_mentioned_items "selling domino crown, goldrow and HF now".toList
        wNameTable wAcrTable 100000).1, x.value ≥ 100000)
    ∧ (((find_mentioned_items "selling domino crown, goldrow and HF now".toList
        wNameTable wAcrTable 100000).1.map (fun x => x.id) ++
        (find_mentioned_items "selling domino crown, goldrow and HF now".toList
        wNameTable wAcrTable 100000).2.map (fun x => x.id)).Nodup)
    ∧ (⟨1, "Domino Crown".toList, [], 24000000⟩ : ScanItem) ∈
        (find_mentioned_items "selling domino crown, goldrow and HF now".toList
          wNameTable wAcrTable 100000).1
    ∧ (⟨4, "Hooded Firelord".toList, "HF".toList, 4200000⟩ : ScanItem) ∈
        (find_mentioned_items "selling domino crown, goldrow and HF now".toList
          wNameTable wAcrTable 100000).1 := by
  have h := C5_scan_partition "selling domino crown, goldrow and HF now".toList
    wNameTable wAcrTable 100000 (by decide)
    [⟨1, "Domino Crown".toList, [], 24000000⟩,
     ⟨4, "Hooded Firelord".toList, "HF".toList, 4200000⟩]
    [] [4, 1] (by decide)
  refine ⟨h.1, h.2.2.2.1, ?_, ?_⟩
  · have hd := h.2.2.2.2.2.2.2.1 "domino crown".toList 1
      ⟨"Domino Crown".toList, [], 100, 24000000⟩
      (by decide) (by decide) (by decide) (by decide) (by decide)
    exact hd
  · have hh := h.2.2.2.2.2.2.2.2.2.1 "hf".toList 4
      ⟨"Hooded Firelord".toList, "HF".toList, 0, 4200000⟩
      (by decide) (by decide) (by decide) (by decide) (by decide) (by decide)
      (by decide) (by decide)
    exact hh

/-! ## Claim C6 (confirmed): the acronym sub-scan conditions -/

/-- C6: an id newly matched by the acronym sub-scan (run by the scan
core on the original text and its lowercased form) always stems from a
table acronym of length at least two that is not blacklisted, occurs as
a whole whitespace token of the lowercased text, and, when it has at
most three characters, also occurs uppercased as a whole token of the
original text; conversely any table acronym meeting those conditions
gets its id matched (soundness and completeness of the sub-scan). -/
theorem C6_acronym_subscan (text : List Char) (threshold : Int) (tbl : Lookup)
    (above below : List ScanItem) (seen : List Nat) :
    (∀ i, i ∈ (acrScanLoop text (text.map lowerChar) threshold tbl
        above below seen).2.2 →
      i ∈ seen ∨ ∃ acr d, (acr, (i, d)) ∈ tbl ∧ 2 ≤ acr.length ∧
        acr ∉ ACRONYM_BLACKLIST ∧
        (acr.length ≤ 3 → acr.map upperChar ∈ splitWs text) ∧
        acr ∈ splitWs (text.map lowerChar))
    ∧ (∀ (acr : List Char) (id0 : Nat) (d : ItemData),
        (acr, (id0, d)) ∈ tbl →
        2 ≤ acr.length →
        acr ∉ ACRONYM_BLACKLIST →
        (acr.length ≤ 3 → acr.map upperChar ∈ splitWs text) →
        acr ∈ splitWs (text.map lowerChar) →
        id0 ∈ (acrScanLoop text (text.map lowerChar) threshold tbl
          above below seen).2.2) :=
  ⟨fun i hi => acrScanLoop_sound text (text.map lowerChar) threshold tbl
      above below seen i hi,
   fun acr id0 d hmem hlen hbl hup htok =>
    acrScanLoop_complete text (text.map lowerChar) threshold tbl above below seen
      acr id0 d hmem hlen hbl hup htok⟩

/-- C6 witness: the two-character acronym `hf` matches when `HF` occurs
uppercased in the original text, and every id matched from the empty
seen state satisfies the scan conditions. -/
theorem C6_witness :
    (4 : Nat) ∈ (acrScanLoop "got HF for sale".toList
        ("got HF for sale".toList.map lowerChar) 100000 wAcrTable [] [] []).2.2
    ∧ ((4 : Nat) ∈ (acrScanLoop "got HF for sale".toList
        ("got HF for sale".toList.map lowerChar) 100000 wAcrTable [] [] []).2.2 →
      (4 : Nat) ∈ ([] : List Nat) ∨ ∃ acr d, (acr, ((4 : Nat), d)) ∈ wAcrTable ∧
        2 ≤ acr.length ∧ acr ∉ ACRONYM_BLACKLIST ∧
        (acr.length ≤ 3 → acr.map upperChar ∈ splitWs "got HF for sale".toList) ∧
        acr ∈ splitWs ("got HF for sale".toList.map lowerChar)) := by
  have h := C6_acronym_subscan "got HF for sale".toList 100000 wAcrTable [] [] []
  exact ⟨h.2 "hf".toList 4 ⟨"Hooded Firelord".toList, "HF".toList, 0, 4200000⟩
      (by decide) (by decide) (by decide) (by decide) (by decide),
    fun hin => h.1 4 hin⟩

/-! ## Claim C3 (corrected): above-threshold mentions force a lead -/

/-- C3 counterexample: `Bighead` is a catalog entry with resolved value
`5000`, at or above the threshold `100`, and the title `selling bighead`
contains its name, yet `screen_text_post` does not return a lead (the
classifier is consulted and its failure yields a non-lead): the name
scan only considers catalog names of at least two words, so a
single-word name never triggers PASS1. -/
theorem C3_counterexample :
    ("bighead".toList, ((3 : Nat), (⟨"Bighead".toList, [], 5000, -1⟩ : ItemData)))
        ∈ wNameTable
      ∧ resolvedValue ⟨"Bighead".toList, [], 5000, -1⟩ ≥ (100 : Int)
      ∧ containsSub "bighead".toList
          (normalize_name (stripChars ("selling bighead".toList ++ ' ' :: []))) = true
      ∧ (screen_text_post "selling bighead".toList [] wNameTable wAcrTable 100
          none).1 = false := by
  refine ⟨by decide, by decide, by decide, by decide⟩

/-- C3 amended: for every catalog entry of the name table whose
resolved value is at or above the threshold and whose indexed
(normalized) name has at least two words, if the normalized combined
title and body contains that name and the name table carries pairwise
distinct ids, then `screen_text_post` returns a lead and its result does
not depend on the classifier outcome.  The two-word restriction is
forced: single-word names are skipped by the name scan. -/
theorem C3_amended (title body : List Char) (nameLookup acronymLookup : Lookup)
    (threshold : Int) (reply : Option (List Char)) (k : List Char) (id0 : Nat)
    (d : ItemData)
    (hmem : (k, (id0, d)) ∈ nameLookup)
    (hnodup : (nameLookup.map (fun p => p.2.1)).Nodup)
    (hwords : ¬ (splitWs k).length < 2)
    (hcontain : containsSub k
        (normalize_name (stripChars (title ++ ' ' :: body))) = true)
    (hv : resolvedValue d ≥ threshold) :
    (screen_text_post title body nameLookup acronymLookup threshold reply).1 = true
    ∧ ∀ reply2, screen_text_post title body nameLookup acronymLookup threshold reply2 =
        screen_text_post title body nameLookup acronymLookup threshold reply := by
  set combined := stripChars (title ++ ' ' :: body) with hcomb
  rcases hn : nameScanLoop (normalize_name combined) threshold nameLookup [] [] []
    with ⟨a1, b1, s1⟩
  have hx := nameScanLoop_complete
    (normalize_name combined) threshold nameLookup [] [] [] k id0 d hmem hnodup
    (by simp) hwords hcontain hv
  rw [hn] at hx
  simp only [] at hx
  obtain ⟨t, ht⟩ := acrScanLoop_above_extends combined (combined.map lowerChar)
    threshold acronymLookup a1 b1 s1
  rcases hsc : scanCore combined nameLookup acronymLookup threshold
    with ⟨above, below, seen⟩
  have hsc2 : scanCore combined nameLookup acronymLookup threshold =
      acrScanLoop combined (combined.map lowerChar) threshold acronymLookup a1 b1 s1 := by
    unfold scanCore
    simp only []
    rw [hn]
  have habove : above = a1 ++ t := by
    have h := congrArg (fun z : List ScanItem × List ScanItem × List Nat => z.1)
      (hsc2.symm.trans hsc)
    simp only [] at h
    rw [ht] at h
    exact h.symm
  have hfind : find_mentioned_items combined nameLookup acronymLookup threshold =
      (sortDescBy (fun y => y.value) above, sortDescBy (fun y => y.value) below) := by
    unfold find_mentioned_items
    simp only []
    rw [hsc]
  have hxA : (⟨id0, d.name, d.acronym, resolvedValue d⟩ : ScanItem) ∈
      sortDescBy (fun y => y.value) above :=
    (sortDescBy_perm _ above).mem_iff.2 (habove ▸ List.mem_append_left t hx)
  have hA : sortDescBy (fun y => y.value) above ≠ [] := List.ne_nil_of_mem hxA
  constructor
  · rw [screen_text_post_cases title body nameLookup acronymLookup threshold reply
      (sortDescBy (fun y => y.value) above) (sortDescBy (fun y => y.value) below) hfind]
    simp [List.isEmpty_iff, hA]
  · intro reply2
    rw [screen_text_post_cases title body nameLookup acronymLookup threshold reply
      (sortDescBy (fun y => y.value) above) (sortDescBy (fun y => y.value) below) hfind,
      screen_text_post_cases title body nameLookup acronymLookup threshold reply2
      (sortDescBy (fun y => y.value) above) (sortDescBy (fun y => y.value) below) hfind]
    simp [List.isEmpty_iff, hA]

/-- C3 witness: the amended theorem applies to the two-word entry
`domino crown` of the witness catalog at threshold 100000. -/
theorem C3_witness :
    (screen_text_post "selling domino crown".toList "cheap".toList wNameTable wAcrTable
        100000 none).1 = true
    ∧ screen_text_post "selling domino crown".toList "cheap".toList wNameTable wAcrTable
        100000 (some "VERDICT: no".toList) =
      screen_text_post "selling domino crown".toList "cheap".toList wNameTable wAcrTable
        100000 none := by
  have h := C3_amended "selling domino crown".toList "cheap".toList wNameTable wAcrTable
    100000 none "domino crown".toList 1 ⟨"Domino Crown".toList, [], 100, 24000000⟩
    (by decide) (by decide) (by decide) (by decide) (by decide)
  exact ⟨h.1, h.2 (some "VERDICT: no".toList)⟩

end Reddih
